import Mathlib

/-!
Verification of `EnvironmentVariable` (ns-3, `src/core/model/environment-variable.cc`).

A shallow embedding of the environment-variable dictionary cache:

* `std::string` is a `List Char`; where the length of a string matters it is
  assumed below `npos`, as the length of every `std::string` is;
* `std::string::size_type` is a `Nat` below `2^64`, with `npos = 2^64 - 1` and
  wrap-around addition and subtraction;
* a member function that can throw `std::out_of_range` returns `Except Error _`;
* the `while` loop of the `Dictionary` constructor is a fuel-indexed recursion;
  the constructor supplies `size() + 2` units of fuel;
* the process environment is a function `Env` and the static cache
  (`Instance()`) is passed explicitly.
-/

set_option autoImplicit false

namespace ns3

/-! ## `std::string` -/

/-- What a call can raise: `std::out_of_range`, thrown by the substring
operations of `std::string` on a start position beyond the end, and `fuel`,
the loop of the embedding running out of iterations. -/
inductive Error where
  | out_of_range
  | fuel
  deriving DecidableEq

/-- Number of values of `std::string::size_type` (64 bit). -/
def sizeMod : Nat := 18446744073709551616

/-- Value of `std::string::npos`, the largest `size_type`. -/
def npos : Nat := 18446744073709551615

/-- Addition of `size_type`, which wraps around. -/
def addSz (a b : Nat) : Nat := (a + b) % sizeMod

/-- Subtraction of `size_type`, which wraps around. -/
def subSz (a b : Nat) : Nat := (a + sizeMod - b % sizeMod) % sizeMod

/-- Search of `std::string::find`: `t` is the text from absolute position `i`
on; the answer is the first position at which `d` starts, `npos` if none. -/
def findFrom (d : List Char) : List Char → Nat → Nat
  | [], i => if d.isPrefixOf [] then i else npos
  | a :: t, i => if d.isPrefixOf (a :: t) then i else findFrom d t (i + 1)

/-- Model of `std::string::find(const std::string& str, size_type pos)`: the lowest
position `xpos ≥ pos` with `xpos + str.size() ≤ size()` at which `str` occurs,
`npos` if there is none (in particular when `pos > size()`). -/
def find (s d : List Char) (pos : Nat) : Nat :=
  if pos > s.length then npos else findFrom d (s.drop pos) pos

/-- Model of `std::string::find(char c)`, which is `find(std::string(1, c), 0)`. -/
def findChar (s : List Char) (c : Char) : Nat := find s [c] 0

/-- Model of `std::string::substr(pos, n)` and of the substring constructor
`std::string{str, pos, n}`: throws `std::out_of_range` when `pos > size()`,
otherwise the `min(n, size() - pos)` characters from `pos` on. -/
def substr (s : List Char) (pos n : Nat) : Except Error (List Char) :=
  if pos > s.length then .error .out_of_range else .ok ((s.drop pos).take n)

/-! ## The map types -/

/-- Modelled from the spec: the header declaring the map types `KeyValueStore`
and `DictionaryList` is missing; the spec describes both as mappings with unique
keys. `StdMap β` is such a map from strings to `β`, kept as the list of its
bindings in insertion order. -/
abbrev StdMap (β : Type) := List (List Char × β)

/-- Model of `map::find`: the value bound to `k`, `none` for `end()`. -/
def StdMap.find {β : Type} (m : StdMap β) (k : List Char) : Option β :=
  match m with
  | [] => none
  | (k', v) :: rest => if k' = k then some v else StdMap.find rest k

/-- Model of `map::insert({k, v})`: adds the binding when `k` is not yet a key,
and leaves the map as it is when `k` is one. -/
def StdMap.insert {β : Type} (m : StdMap β) (k : List Char) (v : β) : StdMap β :=
  match StdMap.find m k with
  | some _ => m
  | none => m ++ [(k, v)]

/-- Model of `map::clear()`. -/
def StdMap.clear {β : Type} (_m : StdMap β) : StdMap β := []

/-- Modelled from the spec: `KeyValueStore`, the mapping from key to value. -/
abbrev KeyValueStore := StdMap (List Char)

/-- Modelled from the spec: `KeyFoundType`, the pair (found, value). -/
abbrev KeyFoundType := Bool × List Char

/-! ## `EnvironmentVariable::Dictionary` -/

/-- The data members of `EnvironmentVariable::Dictionary`. -/
structure Dictionary where
  m_exists : Bool
  m_variable : List Char
  m_dict : KeyValueStore
  deriving DecidableEq

/-- The process environment read by `std::getenv`: `none` is the null pointer. -/
abbrev Env := List Char → Option (List Char)

/-- The body of `if (!keyval.empty())` up to the insertion: splits `keyval` at
its first `=` into the pair inserted into `m_dict`. -/
def parseKeyVal (keyval : List Char) : Except Error (List Char × List Char) :=
  let equal := findChar keyval '='
  if equal ≠ npos then
    match substr keyval 0 equal with
    | .error e => .error e
    | .ok key =>
      match substr keyval (addSz equal 1) keyval.length with
      | .error e => .error e
      | .ok value => .ok (key, value)
  else .ok (keyval, [])

/-- The loop `while (next != std::string::npos)` of the constructor, with the
loop variables `cur`, `next` and `m_dict` as arguments. -/
def parseLoop (m_variable delim : List Char) :
    Nat → Nat → Nat → KeyValueStore → Except Error KeyValueStore
  | 0, _, _, _ => .error .fuel
  | fuel + 1, cur, next, m_dict =>
    if next = npos then .ok m_dict
    else
      let next := find m_variable delim cur
      match substr m_variable cur (subSz next cur) with
      | .error e => .error e
      | .ok keyval =>
        if keyval ≠ [] then
          match parseKeyVal keyval with
          | .error e => .error e
          | .ok (key, value) =>
            parseLoop m_variable delim fuel (addSz next 1) next (StdMap.insert m_dict key value)
        else parseLoop m_variable delim fuel (addSz next 1) next m_dict

/-- The constructor `Dictionary::Dictionary(envvar, delim)`. -/
def Dictionary.new (getenv : Env) (envvar delim : List Char) : Except Error Dictionary :=
  match getenv envvar with
  | none => .ok { m_exists := false, m_variable := [], m_dict := [] }
  | some envCstr =>
    if envCstr ≠ [] then
      match parseLoop envCstr delim (envCstr.length + 2) 0 0 [] with
      | .error e => .error e
      | .ok m_dict => .ok { m_exists := true, m_variable := envCstr, m_dict := m_dict }
    else .ok { m_exists := true, m_variable := envCstr, m_dict := [] }

/-- The member function `Dictionary::Get(key)`. -/
def Dictionary.Get (self : Dictionary) (key : List Char) : KeyFoundType :=
  if !self.m_exists then (false, [])
  else if key.isEmpty then (true, self.m_variable)
  else
    match StdMap.find self.m_dict key with
    | some value => (true, value)
    | none => (false, [])

/-- The member function `Dictionary::GetStore()`. -/
def Dictionary.GetStore (self : Dictionary) : KeyValueStore := self.m_dict

/-! ## `EnvironmentVariable`: the cache -/

/-- Modelled from the spec: `DictionaryList`, the cache mapping a variable name
to its shared `Dictionary`. A `Dictionary` has no mutating member, so the
`std::shared_ptr<Dictionary>` is represented by the value it points to. -/
abbrev DictionaryList := StdMap Dictionary

/-- The static function `EnvironmentVariable::Clear()` on the cache `Instance()`. -/
def Clear (instance_ : DictionaryList) : DictionaryList := StdMap.clear instance_

/-- The static function `EnvironmentVariable::GetDictionary(envvar, delim)`: the
returned dictionary and the cache after the call. When the constructor throws,
the exception leaves the function before the insertion. -/
def GetDictionary (getenv : Env) (instance_ : DictionaryList) (envvar delim : List Char) :
    Except Error (Dictionary × DictionaryList) :=
  match StdMap.find instance_ envvar with
  | some dict => .ok (dict, instance_)
  | none =>
    match Dictionary.new getenv envvar delim with
    | .error e => .error e
    | .ok dict => .ok (dict, StdMap.insert instance_ envvar dict)

/-- The static function `EnvironmentVariable::Get(envvar, key, delim)`. -/
def Get (getenv : Env) (instance_ : DictionaryList) (envvar key delim : List Char) :
    Except Error (KeyFoundType × DictionaryList) :=
  match GetDictionary getenv instance_ envvar delim with
  | .error e => .error e
  | .ok (dict, instance') => .ok (Dictionary.Get dict key, instance')

/-! ## Segments -/

/-- The part of a segment before its first `=` (the whole segment when it has none). -/
def keyOf (seg : List Char) : List Char := seg.takeWhile (fun ch => ch != '=')

/-- The part of a segment after its first `=` (empty when it has none). -/
def valueOf (seg : List Char) : List Char := (seg.dropWhile (fun ch => ch != '=')).drop 1

/-- What one iteration of the loop does to `m_dict` for the segment `seg`: nothing
for an empty segment, otherwise the insertion of its key and value. -/
def insertSegment (m : KeyValueStore) (seg : List Char) : KeyValueStore :=
  if seg ≠ [] then StdMap.insert m (keyOf seg) (valueOf seg) else m

/-! ## Sequences of calls -/

/-- One event in the life of the cache: a call of `GetDictionary`, a call of
`Get`, or a change of the process environment made from outside. -/
inductive Call where
  | GetDictionary (envvar delim : List Char)
  | Get (envvar key delim : List Char)
  | setEnvironment (getenv : Env)

/-- Environment and cache after one event. A call that throws leaves the cache
as it was: the exception leaves `GetDictionary` before the insertion. -/
def step (st : Env × DictionaryList) : Call → Env × DictionaryList
  | .GetDictionary envvar delim =>
    match GetDictionary st.1 st.2 envvar delim with
    | .ok (_, instance') => (st.1, instance')
    | .error _ => st
  | .Get envvar key delim =>
    match Get st.1 st.2 envvar key delim with
    | .ok (_, instance') => (st.1, instance')
    | .error _ => st
  | .setEnvironment getenv => (getenv, st.2)

/-- Environment and cache after a sequence of events without `Clear()`. -/
def run (st : Env × DictionaryList) (calls : List Call) : Env × DictionaryList :=
  calls.foldl step st

/-- The environment in which every variable has the value `value`. -/
def constEnv (value : String) : Env := fun _ => some value.toList

/-- The environment in which no variable is set. -/
def emptyEnv : Env := fun _ => none

/-- The dictionary of the value `a=1;b` parsed with the delimiter `;`. -/
def sampleDict : Dictionary :=
  ⟨true, "a=1;b".toList, [("a".toList, "1".toList), ("b".toList, [])]⟩

/-- A state in which `V` has been read from `a=1;b` with the delimiter `;`. -/
def sampleState : Env × DictionaryList := (constEnv "a=1;b", [("V".toList, sampleDict)])

/-- A sequence of events: the environment changes, `V` is asked for with `,`,
another variable is read, and `V` is read with the empty delimiter. -/
def sampleCalls : List Call :=
  [.setEnvironment (constEnv "a=2,c=3"), .GetDictionary "V".toList ",".toList,
   .Get "W".toList "c".toList ",".toList, .Get "V".toList "a".toList []]


/-! ## The loop with its scan positions recorded -/

/-- The loop `while (next != std::string::npos)` once more, recording for every
iteration that is run the pair of `cur` at its start and of `next` as the
search of that iteration sets it. The second component is the outcome of the
loop. -/
def parseLoopTrace (m_variable delim : List Char) :
    Nat → Nat → Nat → KeyValueStore → List (Nat × Nat) × Except Error KeyValueStore
  | 0, _, _, _ => ([], .error .fuel)
  | fuel + 1, cur, next, m_dict =>
    if next = npos then ([], .ok m_dict)
    else
      let next := find m_variable delim cur
      match substr m_variable cur (subSz next cur) with
      | .error e => ([(cur, next)], .error e)
      | .ok keyval =>
        if keyval ≠ [] then
          match parseKeyVal keyval with
          | .error e => ([(cur, next)], .error e)
          | .ok (key, value) =>
            ((cur, next) ::
                (parseLoopTrace m_variable delim fuel (addSz next 1) next
                  (StdMap.insert m_dict key value)).1,
              (parseLoopTrace m_variable delim fuel (addSz next 1) next
                (StdMap.insert m_dict key value)).2)
        else
          ((cur, next) :: (parseLoopTrace m_variable delim fuel (addSz next 1) next m_dict).1,
            (parseLoopTrace m_variable delim fuel (addSz next 1) next m_dict).2)

/-! ## Tokens and sample environments -/

/-- The token `key=value` of a pair. -/
def token (p : List Char × List Char) : List Char := p.1 ++ '=' :: p.2

/-- The environment in which the variable `name` has the value `value` and no
other variable is set. -/
def singleEnv (name value : String) : Env :=
  fun envvar => if envvar = name.toList then some value.toList else none

/-- The dictionary of the value `A=1;B=2;FLAG` parsed with the delimiter `;`. -/
def envvarDict : Dictionary :=
  ⟨true, "A=1;B=2;FLAG".toList,
    [("A".toList, "1".toList), ("B".toList, "2".toList), ("FLAG".toList, [])]⟩

/-! ## The accessor as the spec words it -/

/-- The accessor in the words of the spec: obtain (or create) the dictionary
for `envvar` through `GetDictionary` with `delim`, then call `Get(key)` on it;
the cache is left as `GetDictionary` leaves it. -/
def GetSpec (getenv : Env) (instance_ : DictionaryList) (envvar key delim : List Char) :
    Except Error (KeyFoundType × DictionaryList) :=
  (GetDictionary getenv instance_ envvar delim).map
    (fun r => (Dictionary.Get r.1 key, r.2))

/-! ## Facts about the map model -/

theorem StdMap.find_append {β : Type} (m m' : StdMap β) (k : List Char) :
    StdMap.find (m ++ m') k =
      match StdMap.find m k with
      | some v => some v
      | none => StdMap.find m' k := by
  induction m with
  | nil => rfl
  | cons p m ih =>
    obtain ⟨k', v⟩ := p
    by_cases hk : k' = k
    · simp [StdMap.find, hk]
    · simp only [List.cons_append, StdMap.find, if_neg hk]
      exact ih

theorem StdMap.find_insert {β : Type} (m : StdMap β) (k k' : List Char) (v : β) :
    StdMap.find (StdMap.insert m k v) k' =
      match StdMap.find m k' with
      | some x => some x
      | none => if k = k' then some v else none := by
  unfold StdMap.insert
  cases h : StdMap.find m k with
  | some x =>
    cases h' : StdMap.find m k' with
    | some y => simp [h']
    | none =>
      have hne : k ≠ k' := by
        intro e
        rw [e, h'] at h
        cases h
      simp [h', hne]
  | none =>
    simp only
    rw [StdMap.find_append]
    cases h' : StdMap.find m k' with
    | some y => rfl
    | none => simp [StdMap.find]

/-! ## Facts about the string model -/

theorem addSz_one {a : Nat} (h : a < npos) : addSz a 1 = a + 1 := by
  unfold addSz sizeMod
  unfold npos at h
  omega

theorem subSz_of_le {a b : Nat} (hb : b ≤ a) (ha : a ≤ npos) : subSz a b = a - b := by
  unfold subSz sizeMod
  unfold npos at ha
  omega

theorem findFrom_of_not_infix (d : List Char) :
    ∀ (t : List Char) (i : Nat), ¬ d <:+: t → findFrom d t i = npos := by
  intro t
  induction t with
  | nil =>
    intro i h
    have hp : ¬ d.isPrefixOf [] = true := fun hp =>
      h (List.isPrefixOf_iff_prefix.mp hp).isInfix
    simp [findFrom, hp]
  | cons a t ih =>
    intro i h
    have hp : ¬ d.isPrefixOf (a :: t) = true := fun hp =>
      h (List.isPrefixOf_iff_prefix.mp hp).isInfix
    have ht : ¬ d <:+: t := fun ht => h (List.infix_cons ht)
    simp only [findFrom, if_neg hp]
    exact ih (i + 1) ht

theorem findFrom_char_append (c : Char) (rest : List Char) :
    ∀ (s : List Char) (i : Nat), c ∉ s → findFrom [c] (s ++ c :: rest) i = i + s.length := by
  intro s
  induction s with
  | nil => intro i _; simp [findFrom, List.isPrefixOf]
  | cons a s ih =>
    intro i h
    have hac : ¬ c = a := fun e => h (by simp [e])
    have hs : c ∉ s := fun hs => h (List.mem_cons_of_mem _ hs)
    have hp : ¬ List.isPrefixOf [c] (a :: (s ++ c :: rest)) = true := by
      simp [List.isPrefixOf, hac]
    rw [List.cons_append, findFrom, if_neg hp, ih (i + 1) hs]
    simp only [List.length_cons]
    omega

theorem findFrom_char_none (c : Char) (s : List Char) (i : Nat) (h : c ∉ s) :
    findFrom [c] s i = npos := by
  apply findFrom_of_not_infix
  intro hin
  exact h (hin.subset (List.mem_singleton_self c))

theorem substr_ok (s : List Char) (pos n : Nat) (h : pos ≤ s.length) :
    substr s pos n = .ok ((s.drop pos).take n) := by
  unfold substr
  rw [if_neg (by omega)]

theorem seg_split (s : List Char) (h : '=' ∈ s) : s = keyOf s ++ '=' :: valueOf s := by
  unfold keyOf valueOf
  have hne : s.dropWhile (fun ch => ch != '=') ≠ [] := by
    intro e
    rw [List.dropWhile_eq_nil_iff] at e
    have := e _ h
    simp at this
  have hhead := List.head_dropWhile_not (fun ch => ch != '=') s hne
  cases hd : s.dropWhile (fun ch => ch != '=') with
  | nil => exact absurd hd hne
  | cons a r =>
    simp only [hd, List.head_cons] at hhead
    have ha : a = '=' := by simpa using hhead
    have := List.takeWhile_append_dropWhile (fun ch => ch != '=') s
    rw [hd, ha] at this
    simpa using this.symm

theorem eq_not_mem_keyOf (s : List Char) : '=' ∉ keyOf s := by
  intro h
  have := List.mem_takeWhile_imp h
  simp at this

theorem parseKeyVal_eq (s : List Char) (h : s.length < npos) :
    parseKeyVal s = .ok (keyOf s, valueOf s) := by
  unfold parseKeyVal findChar find
  simp only [gt_iff_lt, Nat.not_lt_zero, if_false, List.drop_zero]
  by_cases hmem : '=' ∈ s
  · have hs := seg_split s hmem
    have hnk := eq_not_mem_keyOf s
    generalize keyOf s = k at hs hnk ⊢
    generalize valueOf s = v at hs ⊢
    subst hs
    simp only [List.length_append, List.length_cons] at h
    have hf : findFrom ['='] (k ++ '=' :: v) 0 = k.length := by
      rw [findFrom_char_append _ _ _ _ hnk]
      omega
    rw [hf]
    have hne : k.length ≠ npos := by omega
    rw [if_pos hne, substr_ok _ _ _ (by simp), addSz_one (by omega),
      substr_ok _ _ _ (by simp)]
    simp only [List.drop_zero]
    have h1 : List.take k.length (k ++ '=' :: v) = k := by
      rw [List.take_left']
      rfl
    have h2 : List.take (k ++ '=' :: v).length (List.drop (k.length + 1) (k ++ '=' :: v)) = v := by
      have hd : List.drop (k.length + 1) (k ++ '=' :: v) = v := by
        rw [List.drop_append_eq_append_drop, List.drop_of_length_le (by omega)]
        simp
      rw [hd, List.take_of_length_le (by simp only [List.length_append, List.length_cons]; omega)]
    rw [h1, h2]
  · have hf : findFrom ['='] s 0 = npos := findFrom_char_none _ _ _ hmem
    rw [hf]
    simp only [ne_eq, not_true_eq_false, if_false]
    have hk : keyOf s = s := by
      unfold keyOf
      rw [List.takeWhile_eq_self_iff]
      intro x hx
      simp only [bne_iff_ne, ne_eq]
      intro e
      exact hmem (e ▸ hx)
    have hv : valueOf s = [] := by
      unfold valueOf
      have : s.dropWhile (fun ch => ch != '=') = [] := by
        rw [List.dropWhile_eq_nil_iff]
        intro x hx
        simp only [bne_iff_ne, ne_eq]
        intro e
        exact hmem (e ▸ hx)
      rw [this]
      rfl
    rw [hk, hv]

/-! ## The steps of the loop -/

theorem parseLoop_exit (v d : List Char) (fuel cur : Nat) (m : KeyValueStore) :
    parseLoop v d (fuel + 1) cur npos m = .ok m := by
  simp [parseLoop]

/-- An iteration that finds the delimiter at `p` handles the segment between
`cur` and `p` and goes on from `p + 1`. -/
theorem parseLoop_step_found (v d : List Char) (fuel cur next p : Nat) (m : KeyValueStore)
    (hv : v.length < npos) (hnext : next ≠ npos) (hfind : find v d cur = p)
    (hcur : cur ≤ p) (hp : p ≤ v.length) :
    parseLoop v d (fuel + 1) cur next m =
      parseLoop v d fuel (p + 1) p (insertSegment m ((v.drop cur).take (p - cur))) := by
  have hseg : ((v.drop cur).take (p - cur)).length < npos := by
    rw [List.length_take, List.length_drop]
    omega
  rw [parseLoop, if_neg hnext]
  simp only [hfind]
  rw [substr_ok _ _ _ (by omega), subSz_of_le hcur (by omega), addSz_one (by omega)]
  simp only [insertSegment]
  by_cases he : (v.drop cur).take (p - cur) = []
  · simp [he]
  · simp only [ne_eq, he, not_false_eq_true, if_true]
    rw [parseKeyVal_eq _ hseg]

/-- An iteration that does not find the delimiter handles the rest of the value
as the last segment, and the loop ends. -/
theorem parseLoop_step_last (v d : List Char) (fuel cur next : Nat) (m : KeyValueStore)
    (hv : v.length < npos) (hnext : next ≠ npos) (hfind : find v d cur = npos)
    (hcur : cur ≤ v.length) :
    parseLoop v d (fuel + 2) cur next m = .ok (insertSegment m (v.drop cur)) := by
  have hseg : (v.drop cur).length < npos := by
    rw [List.length_drop]
    omega
  have htake : (v.drop cur).take (npos - cur) = v.drop cur := by
    rw [List.take_of_length_le]
    rw [List.length_drop]
    omega
  rw [parseLoop, if_neg hnext]
  simp only [hfind]
  rw [substr_ok _ _ _ hcur, subSz_of_le (by omega) (Nat.le_refl _), htake]
  simp only [insertSegment]
  by_cases he : v.drop cur = []
  · simp [he, parseLoop_exit]
  · simp only [ne_eq, he, not_false_eq_true, if_true]
    rw [parseKeyVal_eq _ hseg]
    simp only [parseLoop_exit]

theorem findFrom_bounds (d : List Char) :
    ∀ (t : List Char) (i : Nat),
      findFrom d t i = npos ∨ (i ≤ findFrom d t i ∧ findFrom d t i + d.length ≤ i + t.length) := by
  intro t
  induction t with
  | nil =>
    intro i
    by_cases hp : d.isPrefixOf [] = true
    · right
      have hd : d = [] := List.prefix_nil.mp (List.isPrefixOf_iff_prefix.mp hp)
      simp [findFrom, hd]
    · left
      simp [findFrom, hp]
  | cons a t ih =>
    intro i
    by_cases hp : d.isPrefixOf (a :: t) = true
    · right
      have hl := (List.isPrefixOf_iff_prefix.mp hp).length_le
      rw [findFrom, if_pos hp]
      omega
    · rw [findFrom, if_neg hp]
      rcases ih (i + 1) with h | h
      · exact Or.inl h
      · right
        simp only [List.length_cons]
        omega

theorem find_bounds (v d : List Char) (cur : Nat) :
    find v d cur = npos ∨ (cur ≤ find v d cur ∧ find v d cur + d.length ≤ v.length) := by
  unfold find
  by_cases hc : cur > v.length
  · simp [hc]
  · rw [if_neg hc]
    rcases findFrom_bounds d (v.drop cur) cur with h | h
    · exact Or.inl h
    · right
      rw [List.length_drop] at h
      omega

/-- With a non-empty delimiter the loop returns a store, from every position
inside the value and with the fuel the constructor supplies. -/
theorem parseLoop_total (v d : List Char) (hd : d ≠ []) (hv : v.length < npos) :
    ∀ (fuel cur next : Nat) (m : KeyValueStore), cur ≤ v.length → v.length + 2 ≤ fuel + cur →
      ∃ m', parseLoop v d fuel cur next m = .ok m' := by
  have hdl : 0 < d.length := List.length_pos.mpr hd
  intro fuel
  induction fuel with
  | zero =>
    intro cur next m hcur hfuel
    omega
  | succ fuel ih =>
    intro cur next m hcur hfuel
    by_cases hnext : next = npos
    · exact ⟨m, by rw [hnext, parseLoop_exit]⟩
    · rcases find_bounds v d cur with h | h
      · obtain ⟨f, rfl⟩ : ∃ f, fuel = f + 1 := ⟨fuel - 1, by omega⟩
        exact ⟨_, parseLoop_step_last v d f cur next m hv hnext h hcur⟩
      · rw [parseLoop_step_found v d fuel cur next _ m hv hnext rfl h.1 (by omega)]
        exact ih _ _ _ (by omega) (by omega)

theorem intercalate_cons_cons (d s s' : List Char) (r : List (List Char)) :
    List.intercalate d (s :: s' :: r) = s ++ d ++ List.intercalate d (s' :: r) := by
  simp [List.intercalate, List.intersperse]

theorem intercalate_singleton (d s : List Char) : List.intercalate d [s] = s := by
  simp [List.intercalate, List.intersperse]

/-- On a value that is a list of segments joined by a one-character delimiter
that occurs in none of them, the loop handles the segments one by one. -/
theorem parseLoop_join (c : Char) :
    ∀ (segs : List (List Char)) (s pre : List Char) (fuel next : Nat) (m : KeyValueStore),
      (∀ x ∈ s :: segs, c ∉ x) →
      (pre ++ List.intercalate [c] (s :: segs)).length < npos →
      segs.length + 2 ≤ fuel → next ≠ npos →
      parseLoop (pre ++ List.intercalate [c] (s :: segs)) [c] fuel pre.length next m =
        .ok ((s :: segs).foldl insertSegment m) := by
  intro segs
  induction segs with
  | nil =>
    intro s pre fuel next m hc hv hfuel hnext
    obtain ⟨f, rfl⟩ : ∃ f, fuel = f + 2 := ⟨fuel - 2, by simp at hfuel; omega⟩
    rw [intercalate_singleton] at hv ⊢
    have hfind : find (pre ++ s) [c] pre.length = npos := by
      unfold find
      rw [if_neg (by simp), List.drop_left]
      exact findFrom_char_none c s _ (hc s (List.mem_cons_self _ _))
    rw [parseLoop_step_last _ _ f _ next m hv hnext hfind (by simp), List.drop_left]
    rfl
  | cons s' rest ih =>
    intro s pre fuel next m hc hv hfuel hnext
    obtain ⟨f, rfl⟩ : ∃ f, fuel = f + 1 := ⟨fuel - 1, by simp at hfuel; omega⟩
    have hcs : c ∉ s := hc s (List.mem_cons_self _ _)
    have hrest : ∀ x ∈ s' :: rest, c ∉ x := fun x hx => hc x (List.mem_cons_of_mem _ hx)
    have hveq : pre ++ List.intercalate [c] (s :: s' :: rest) =
        (pre ++ s ++ [c]) ++ List.intercalate [c] (s' :: rest) := by
      rw [intercalate_cons_cons]
      simp
    have hfind : find (pre ++ List.intercalate [c] (s :: s' :: rest)) [c] pre.length =
        pre.length + s.length := by
      unfold find
      rw [if_neg (by simp), List.drop_left, intercalate_cons_cons, List.append_assoc]
      exact findFrom_char_append c _ s _ hcs
    have hseg : ((pre ++ List.intercalate [c] (s :: s' :: rest)).drop pre.length).take
        (pre.length + s.length - pre.length) = s := by
      rw [List.drop_left, intercalate_cons_cons, List.append_assoc, Nat.add_sub_cancel_left,
        List.take_left']
      rfl
    rw [parseLoop_step_found _ _ f _ next _ m hv hnext hfind (by omega)
      (by rw [hveq]; simp only [List.length_append]; omega), hseg]
    have hlen : pre.length + s.length + 1 = (pre ++ s ++ [c]).length := by
      simp only [List.length_append, List.length_singleton]
    rw [hlen, hveq]
    rw [hveq] at hv
    have hp : pre.length + s.length ≠ npos := by
      simp only [List.length_append] at hv
      omega
    rw [ih s' (pre ++ s ++ [c]) f _ (insertSegment m s) hrest hv
      (by simp only [List.length_cons] at hfuel ⊢; omega) hp]
    rfl


/-! ## The constructor on joined segments -/

theorem intercalate_cons_length (d s : List Char) (rest : List (List Char)) :
    (List.intercalate d (s :: rest)).length =
      s.length + (if rest = [] then 0 else d.length + (List.intercalate d rest).length) := by
  cases rest with
  | nil => simp [intercalate_singleton]
  | cons s' r =>
    rw [intercalate_cons_cons]
    simp only [List.length_append, reduceCtorEq, if_false]
    omega

theorem length_le_intercalate (c : Char) :
    ∀ (segs : List (List Char)), segs.length ≤ (List.intercalate [c] segs).length + 1 := by
  intro segs
  induction segs with
  | nil => simp
  | cons s rest ih =>
    rw [intercalate_cons_length]
    by_cases hr : rest = []
    · simp [hr]
    · simp only [hr, if_false, List.length_cons, List.length_singleton]
      omega

theorem intercalate_filter_length_le (d : List Char) (p : List Char → Bool) :
    ∀ (segs : List (List Char)),
      (List.intercalate d (segs.filter p)).length ≤ (List.intercalate d segs).length := by
  intro segs
  induction segs with
  | nil => simp
  | cons s rest ih =>
    by_cases hp : p s = true
    · rw [List.filter_cons_of_pos hp, intercalate_cons_length, intercalate_cons_length]
      by_cases hf : rest.filter p = []
      · simp [hf]
      · have hr : rest ≠ [] := by
          intro e
          exact hf (by rw [e]; rfl)
        simp only [hf, hr, if_false]
        omega
    · rw [List.filter_cons_of_neg hp, intercalate_cons_length]
      by_cases hr : rest = []
      · simp [hr, List.intercalate]
      · simp only [hr, if_false]
        omega

theorem foldl_insertSegment_of_empty :
    ∀ (segs : List (List Char)) (m : KeyValueStore), (∀ x ∈ segs, x = []) →
      segs.foldl insertSegment m = m := by
  intro segs
  induction segs with
  | nil => intro m _; rfl
  | cons s rest ih =>
    intro m h
    have hs : s = [] := h s (List.mem_cons_self _ _)
    rw [List.foldl_cons, hs]
    exact ih _ (fun x hx => h x (List.mem_cons_of_mem _ hx))

theorem foldl_insertSegment_filter :
    ∀ (segs : List (List Char)) (m : KeyValueStore),
      (segs.filter (fun seg => decide (seg ≠ []))).foldl insertSegment m =
        segs.foldl insertSegment m := by
  intro segs
  induction segs with
  | nil => intro m; rfl
  | cons s rest ih =>
    intro m
    by_cases hs : s = []
    · subst hs
      rw [List.filter_cons_of_neg (by simp), List.foldl_cons, ih]
      rfl
    · rw [List.filter_cons_of_pos (by simp [hs]), List.foldl_cons, List.foldl_cons, ih]

theorem eq_nil_of_intercalate_eq_nil (d : List Char) :
    ∀ (segs : List (List Char)), List.intercalate d segs = [] → ∀ x ∈ segs, x = [] := by
  intro segs
  induction segs with
  | nil => intro _ x hx; cases hx
  | cons s rest ih =>
    intro h x hx
    have hlen := intercalate_cons_length d s rest
    rw [h] at hlen
    simp only [List.length_nil] at hlen
    have hs : s = [] := List.length_eq_zero.mp (by omega)
    rcases List.mem_cons.mp hx with e | hmem
    · rw [e, hs]
    · by_cases hr : rest = []
      · rw [hr] at hmem
        cases hmem
      · simp only [hr, if_false] at hlen
        exact ih (List.length_eq_zero.mp (by omega)) x hmem

/-- The dictionary built from segments joined by a one-character delimiter that
occurs in none of them: the store is filled segment by segment, in order. -/
theorem Dictionary.new_join (getenv : Env) (envvar : List Char) (c : Char)
    (segs : List (List Char)) (hc : ∀ x ∈ segs, c ∉ x)
    (hlen : (List.intercalate [c] segs).length < npos)
    (hget : getenv envvar = some (List.intercalate [c] segs)) :
    Dictionary.new getenv envvar [c] =
      .ok { m_exists := true, m_variable := List.intercalate [c] segs,
            m_dict := segs.foldl insertSegment [] } := by
  unfold Dictionary.new
  rw [hget]
  simp only
  by_cases hv : List.intercalate [c] segs = []
  · rw [if_neg (by simp [hv]),
      foldl_insertSegment_of_empty segs [] (eq_nil_of_intercalate_eq_nil _ segs hv)]
  · rw [if_pos hv]
    cases segs with
    | nil => exact absurd rfl hv
    | cons s rest =>
      have hfuel : rest.length + 2 ≤ (List.intercalate [c] (s :: rest)).length + 2 := by
        have := length_le_intercalate c (s :: rest)
        simp only [List.length_cons] at this
        omega
      have h := parseLoop_join c rest s [] _ 0 [] hc (by simpa using hlen) hfuel (by decide)
      simp only [List.nil_append, List.length_nil] at h
      rw [h]

/-! ## Facts about the constructor and the cache -/

theorem Dictionary.new_present (getenv : Env) (envvar delim s : List Char) (dict : Dictionary)
    (hget : getenv envvar = some s) (hdict : Dictionary.new getenv envvar delim = .ok dict) :
    dict.m_exists = true ∧ dict.m_variable = s := by
  unfold Dictionary.new at hdict
  rw [hget] at hdict
  simp only at hdict
  by_cases hs : s = []
  · rw [if_neg (by simp [hs])] at hdict
    cases hdict
    exact ⟨rfl, rfl⟩
  · rw [if_pos hs] at hdict
    cases hl : parseLoop s delim (s.length + 2) 0 0 [] with
    | error e => rw [hl] at hdict; cases hdict
    | ok m =>
      rw [hl] at hdict
      cases hdict
      exact ⟨rfl, rfl⟩

/-- With a non-empty delimiter the constructor returns a dictionary. -/
theorem Dictionary.new_total (getenv : Env) (envvar delim : List Char) (hd : delim ≠ [])
    (hlen : ∀ s, getenv envvar = some s → s.length < npos) :
    ∃ dict, Dictionary.new getenv envvar delim = .ok dict := by
  unfold Dictionary.new
  cases hget : getenv envvar with
  | none => exact ⟨_, rfl⟩
  | some s =>
    simp only
    by_cases hs : s = []
    · rw [if_neg (by simp [hs])]
      exact ⟨_, rfl⟩
    · rw [if_pos hs]
      obtain ⟨m, hm⟩ := parseLoop_total s delim hd (hlen s hget) (s.length + 2) 0 0 []
        (Nat.zero_le _) (Nat.le_refl _)
      rw [hm]
      exact ⟨_, rfl⟩

/-- A call of `GetDictionary` keeps every binding the cache already has. -/
theorem GetDictionary_preserves (getenv : Env) (instance_ instance' : DictionaryList)
    (envvar delim name : List Char) (dict d : Dictionary)
    (hfind : StdMap.find instance_ name = some d)
    (hcall : GetDictionary getenv instance_ envvar delim = .ok (dict, instance')) :
    StdMap.find instance' name = some d := by
  unfold GetDictionary at hcall
  cases hc : StdMap.find instance_ envvar with
  | some x =>
    rw [hc] at hcall
    cases hcall
    exact hfind
  | none =>
    rw [hc] at hcall
    cases hn : Dictionary.new getenv envvar delim with
    | error e => rw [hn] at hcall; cases hcall
    | ok y =>
      rw [hn] at hcall
      cases hcall
      rw [StdMap.find_insert, hfind]

theorem GetDictionary_hit (getenv : Env) (instance_ : DictionaryList)
    (envvar delim : List Char) (dict : Dictionary)
    (hfind : StdMap.find instance_ envvar = some dict) :
    GetDictionary getenv instance_ envvar delim = .ok (dict, instance_) := by
  unfold GetDictionary
  rw [hfind]

/-! ## Lookup in a store filled segment by segment -/

theorem insertSegment_of_ne (m : KeyValueStore) (seg : List Char) (h : seg ≠ []) :
    insertSegment m seg = StdMap.insert m (keyOf seg) (valueOf seg) := by
  unfold insertSegment
  rw [if_pos h]

theorem find_insertSegment_of_some (m : KeyValueStore) (seg k v : List Char)
    (h : StdMap.find m k = some v) : StdMap.find (insertSegment m seg) k = some v := by
  unfold insertSegment
  by_cases hs : seg = []
  · rw [if_neg (by simp [hs])]
    exact h
  · rw [if_pos hs, StdMap.find_insert, h]

theorem find_foldl_of_some (k v : List Char) :
    ∀ (segs : List (List Char)) (m : KeyValueStore), StdMap.find m k = some v →
      StdMap.find (segs.foldl insertSegment m) k = some v := by
  intro segs
  induction segs with
  | nil => intro m h; exact h
  | cons s rest ih =>
    intro m h
    rw [List.foldl_cons]
    exact ih _ (find_insertSegment_of_some m s k v h)

theorem find_foldl_of_none (k : List Char) :
    ∀ (segs : List (List Char)) (m : KeyValueStore), StdMap.find m k = none →
      (∀ x ∈ segs, x ≠ [] → keyOf x ≠ k) →
      StdMap.find (segs.foldl insertSegment m) k = none := by
  intro segs
  induction segs with
  | nil => intro m h _; exact h
  | cons s rest ih =>
    intro m h hk
    rw [List.foldl_cons]
    apply ih
    · unfold insertSegment
      by_cases hs : s = []
      · rw [if_neg (by simp [hs])]
        exact h
      · rw [if_pos hs, StdMap.find_insert, h]
        simp only
        rw [if_neg (hk s (List.mem_cons_self _ _) hs)]
    · exact fun x hx => hk x (List.mem_cons_of_mem _ hx)

theorem find_foldl_first (before after : List (List Char)) (seg : List Char)
    (m : KeyValueStore) (hm : StdMap.find m (keyOf seg) = none) (hseg : seg ≠ [])
    (hfirst : ∀ x ∈ before, x ≠ [] → keyOf x ≠ keyOf seg) :
    StdMap.find ((before ++ seg :: after).foldl insertSegment m) (keyOf seg) =
      some (valueOf seg) := by
  rw [List.foldl_append, List.foldl_cons]
  apply find_foldl_of_some
  have hb := find_foldl_of_none (keyOf seg) before m hm hfirst
  rw [insertSegment_of_ne _ _ hseg, StdMap.find_insert, hb]
  simp

/-- The fuel the constructor supplies is enough for every delimiter: the loop
never stops for lack of iterations. -/
theorem parseLoop_fuel_suffices (v d : List Char) (hv : v.length < npos) :
    ∀ (fuel cur next : Nat) (m : KeyValueStore), cur ≤ v.length + 1 →
      v.length + 2 ≤ fuel + cur → parseLoop v d fuel cur next m ≠ .error .fuel := by
  intro fuel
  induction fuel with
  | zero =>
    intro cur next m hcur hfuel
    omega
  | succ fuel ih =>
    intro cur next m hcur hfuel
    by_cases hnext : next = npos
    · rw [hnext, parseLoop_exit]
      exact fun h => nomatch h
    · rcases find_bounds v d cur with h | h
      · by_cases hin : cur ≤ v.length
        · obtain ⟨f, rfl⟩ : ∃ f, fuel = f + 1 := ⟨fuel - 1, by omega⟩
          rw [parseLoop_step_last v d f cur next m hv hnext h hin]
          exact fun h => nomatch h
        · have hsub : substr v cur (subSz (find v d cur) cur) = .error .out_of_range := by
            unfold substr
            rw [if_pos (by omega)]
          rw [parseLoop, if_neg hnext]
          simp only [hsub]
          exact fun h => nomatch h
      · rw [parseLoop_step_found v d fuel cur next _ m hv hnext rfl h.1 (by omega)]
        exact ih _ _ _ (by omega) (by omega)

/-- With a non-empty delimiter, `Get("")` on the dictionary of a present
variable returns the value as it is in the environment. -/
theorem Dictionary.Get_empty_key (getenv : Env) (envvar delim s : List Char) (hd : delim ≠ [])
    (hlen : s.length < npos) (hget : getenv envvar = some s) :
    ∃ dict, Dictionary.new getenv envvar delim = .ok dict ∧
      Dictionary.Get dict [] = (true, s) := by
  obtain ⟨dict, hdict⟩ := Dictionary.new_total getenv envvar delim hd
    (fun t ht => by rw [hget] at ht; cases ht; exact hlen)
  obtain ⟨hex, hvar⟩ := Dictionary.new_present getenv envvar delim s dict hget hdict
  refine ⟨dict, hdict, ?_⟩
  unfold Dictionary.Get
  rw [hex, hvar]
  rfl

/-! ## The claims -/

/-- C1: for a non-empty key and a dictionary built from a variable that is
present, `Get(key)` returns `(true, v)` exactly when the store returned by
`GetStore()` maps `key` to `v`, and `(false, "")` exactly when `key` is not a
key of that store. -/
theorem C1_Get_agrees_with_GetStore (getenv : Env) (envvar delim s key : List Char)
    (dict : Dictionary) (hget : getenv envvar = some s)
    (hdict : Dictionary.new getenv envvar delim = .ok dict) (hkey : key ≠ []) :
    (∀ v, Dictionary.Get dict key = (true, v) ↔ StdMap.find (Dictionary.GetStore dict) key = some v) ∧
    (Dictionary.Get dict key = (false, []) ↔ StdMap.find (Dictionary.GetStore dict) key = none) := by
  obtain ⟨hex, _⟩ := Dictionary.new_present getenv envvar delim s dict hget hdict
  have hk : key.isEmpty = false := by
    cases key with
    | nil => exact absurd rfl hkey
    | cons a t => rfl
  unfold Dictionary.Get Dictionary.GetStore
  rw [hex, hk]
  cases hf : StdMap.find dict.m_dict key with
  | none => simp
  | some w => simp

/-- Instance of C1: the variable is `A=1`, the key is `A`. -/
theorem C1_Get_agrees_with_GetStore_witness :
    (∀ v, Dictionary.Get ⟨true, "A=1".toList, [("A".toList, "1".toList)]⟩ "A".toList = (true, v) ↔
      StdMap.find (Dictionary.GetStore ⟨true, "A=1".toList, [("A".toList, "1".toList)]⟩)
        "A".toList = some v) ∧
    (Dictionary.Get ⟨true, "A=1".toList, [("A".toList, "1".toList)]⟩ "A".toList = (false, []) ↔
      StdMap.find (Dictionary.GetStore ⟨true, "A=1".toList, [("A".toList, "1".toList)]⟩)
        "A".toList = none) :=
  C1_Get_agrees_with_GetStore (constEnv "A=1") "ENVVAR".toList ";".toList "A=1".toList
    "A".toList ⟨true, "A=1".toList, [("A".toList, "1".toList)]⟩ rfl rfl (by decide)

/-- C2: for a variable that is absent from the environment, whatever the key
(the empty key included) and the delimiter, the constructor returns a
dictionary whose `Get(key)` is `(false, "")`, and the accessor
`Get(envvar, key, delim)` on an empty cache returns `(false, "")`. -/
theorem C2_absent_variable_not_found (getenv : Env) (envvar key delim : List Char)
    (habsent : getenv envvar = none) :
    ∃ dict, Dictionary.new getenv envvar delim = .ok dict ∧
      Dictionary.Get dict key = (false, []) ∧
      Get getenv [] envvar key delim = .ok ((false, []), [(envvar, dict)]) := by
  refine ⟨{ m_exists := false, m_variable := [], m_dict := [] }, ?_, rfl, ?_⟩
  · unfold Dictionary.new
    rw [habsent]
  · unfold Get GetDictionary Dictionary.new
    rw [habsent]
    rfl

/-- Instance of C2: no variable is set, the key and the delimiter are empty. -/
theorem C2_absent_variable_not_found_witness :
    ∃ dict, Dictionary.new emptyEnv "ENVVAR".toList [] = .ok dict ∧
      Dictionary.Get dict [] = (false, []) ∧
      Get emptyEnv [] "ENVVAR".toList [] [] = .ok ((false, []), [("ENVVAR".toList, dict)]) :=
  C2_absent_variable_not_found emptyEnv "ENVVAR".toList [] [] rfl

/-- C3, at the input where it fails: for the variable `x` and the empty
delimiter the constructor throws `std::out_of_range`, so there is no dictionary
whose `Get("")` could return `(true, "x")`, and the accessor throws as well. -/
theorem C3_empty_delimiter_throws :
    Dictionary.new (constEnv "x") "ENVVAR".toList [] = .error .out_of_range ∧
    Get (constEnv "x") [] "ENVVAR".toList [] [] = .error .out_of_range :=
  ⟨rfl, rfl⟩

/-- C4: for a delimiter `d` and a non-empty value `s` that does not contain `d`
(such a `d` is not empty, the empty string occurring in every `s`), the
constructor returns a dictionary with exactly one entry: when `s` contains `=`,
`s` is `k ++ "=" ++ v` with no `=` in `k` and the entry is `(k, v)`, where `v`
may be empty or contain further `=`; when `s` contains no `=`, the entry is
`(s, "")`. -/
theorem C4_single_segment (getenv : Env) (envvar d s : List Char) (hs : s ≠ [])
    (hds : ¬ d <:+: s) (hlen : s.length < npos) (hget : getenv envvar = some s) :
    ∃ dict, Dictionary.new getenv envvar d = .ok dict ∧
      ('=' ∈ s → ∃ k v, s = k ++ '=' :: v ∧ '=' ∉ k ∧ Dictionary.GetStore dict = [(k, v)]) ∧
      ('=' ∉ s → Dictionary.GetStore dict = [(s, [])]) := by
  have hfind : find s d 0 = npos := by
    unfold find
    rw [if_neg (by omega), List.drop_zero]
    exact findFrom_of_not_infix d s 0 hds
  have hloop := parseLoop_step_last s d s.length 0 0 [] hlen (by decide) hfind (Nat.zero_le _)
  rw [List.drop_zero] at hloop
  have hins : insertSegment [] s = [(keyOf s, valueOf s)] := by
    unfold insertSegment
    rw [if_pos hs]
    rfl
  refine ⟨{ m_exists := true, m_variable := s, m_dict := [(keyOf s, valueOf s)] }, ?_, ?_, ?_⟩
  · unfold Dictionary.new
    rw [hget]
    simp only
    rw [if_pos hs, hloop, hins]
  · intro hmem
    exact ⟨keyOf s, valueOf s, seg_split s hmem, eq_not_mem_keyOf s, rfl⟩
  · intro hmem
    have hsplit := List.takeWhile_append_dropWhile (fun ch => ch != '=') s
    have hdrop : s.dropWhile (fun ch => ch != '=') = [] := by
      rw [List.dropWhile_eq_nil_iff]
      intro x hx
      simp only [bne_iff_ne, ne_eq]
      intro e
      exact hmem (e ▸ hx)
    have hk : keyOf s = s := by
      unfold keyOf
      rw [hdrop, List.append_nil] at hsplit
      exact hsplit
    have hv : valueOf s = [] := by
      unfold valueOf
      rw [hdrop]
      rfl
    simp only [Dictionary.GetStore, hk, hv]

/-- Instance of C4: the value `FOO=a=b` with the delimiter `::`. -/
theorem C4_single_segment_witness :
    ∃ dict, Dictionary.new (constEnv "FOO=a=b") "ENVVAR".toList "::".toList = .ok dict ∧
      ('=' ∈ "FOO=a=b".toList →
        ∃ k v, "FOO=a=b".toList = k ++ '=' :: v ∧ '=' ∉ k ∧ Dictionary.GetStore dict = [(k, v)]) ∧
      ('=' ∉ "FOO=a=b".toList → Dictionary.GetStore dict = [("FOO=a=b".toList, [])]) :=
  C4_single_segment (constEnv "FOO=a=b") "ENVVAR".toList "::".toList "FOO=a=b".toList
    (by decide) (by decide) (by decide) rfl

/-- C5, as stated, fails: for the value `A=1;A=2` and the delimiter `;` the
store maps `A` to `1`, the value of the first segment, and `Get("A")` is
`(true, "1")`, not `(true, "2")`. -/
theorem C5_last_occurrence_counterexample :
    ∃ dict, Dictionary.new (constEnv "A=1;A=2") "ENVVAR".toList ";".toList = .ok dict ∧
      StdMap.find (Dictionary.GetStore dict) "A".toList = some "1".toList ∧
      Dictionary.Get dict "A".toList = (true, "1".toList) ∧
      Dictionary.Get dict "A".toList ≠ (true, "2".toList) :=
  ⟨⟨true, "A=1;A=2".toList, [("A".toList, "1".toList)]⟩, rfl, rfl, rfl, by decide⟩

/-- C5, amended: the first occurrence of a key wins. For a one-character
delimiter and a value made of segments joined by it, if `seg` is a non-empty
segment and no non-empty segment before it has the key of `seg`, the store maps
that key to the value of `seg`, whatever the segments after it are; for a
non-empty key, `Get` returns `(true, value of seg)`. -/
theorem C5_first_occurrence_wins (getenv : Env) (envvar : List Char) (c : Char)
    (before after : List (List Char)) (seg : List Char)
    (hc : ∀ x ∈ before ++ seg :: after, c ∉ x)
    (hlen : (List.intercalate [c] (before ++ seg :: after)).length < npos)
    (hget : getenv envvar = some (List.intercalate [c] (before ++ seg :: after)))
    (hseg : seg ≠ [])
    (hfirst : ∀ x ∈ before, x ≠ [] → keyOf x ≠ keyOf seg) :
    ∃ dict, Dictionary.new getenv envvar [c] = .ok dict ∧
      StdMap.find (Dictionary.GetStore dict) (keyOf seg) = some (valueOf seg) ∧
      (keyOf seg ≠ [] → Dictionary.Get dict (keyOf seg) = (true, valueOf seg)) := by
  have hstore := find_foldl_first before after seg [] rfl hseg hfirst
  refine ⟨_, Dictionary.new_join getenv envvar c _ hc hlen hget, hstore, ?_⟩
  intro hkey
  have hk : (keyOf seg).isEmpty = false := by
    cases h : keyOf seg with
    | nil => exact absurd h hkey
    | cons a t => rfl
  unfold Dictionary.Get
  simp only [Bool.not_true, Bool.false_eq_true, if_false, hk]
  rw [hstore]

/-- Instance of the amended C5: the value `A=1;A=2`, whose first segment is `A=1`. -/
theorem C5_first_occurrence_wins_witness :
    ∃ dict, Dictionary.new (constEnv "A=1;A=2") "ENVVAR".toList [';'] = .ok dict ∧
      StdMap.find (Dictionary.GetStore dict) (keyOf "A=1".toList) = some (valueOf "A=1".toList) ∧
      (keyOf "A=1".toList ≠ [] →
        Dictionary.Get dict (keyOf "A=1".toList) = (true, valueOf "A=1".toList)) :=
  C5_first_occurrence_wins (constEnv "A=1;A=2") "ENVVAR".toList ';' [] ["A=2".toList]
    "A=1".toList (by decide) (by decide) rfl (by decide) (by decide)

/-- C6, at the input where it fails: for the value `A=1::B=2` and the delimiter
`::` the loop resumes one character after the start of the delimiter, so the
second key is `:B` and not `B`. -/
theorem C6_two_character_delimiter :
    Dictionary.new (constEnv "A=1::B=2") "ENVVAR".toList "::".toList =
      .ok ⟨true, "A=1::B=2".toList, [("A".toList, "1".toList), (":B".toList, "2".toList)]⟩ ∧
    StdMap.find [("A".toList, "1".toList), (":B".toList, "2".toList)] "B".toList = none :=
  ⟨rfl, rfl⟩

/-- C7: for a one-character delimiter and segments none of which contains it,
the dictionary built from the segments joined by the delimiter has the same
store as the dictionary built from the non-empty segments alone: leading,
trailing and consecutive delimiters add no entry. -/
theorem C7_empty_segments_skipped (getenv getenv' : Env) (envvar : List Char) (c : Char)
    (segs : List (List Char)) (hc : ∀ x ∈ segs, c ∉ x)
    (hlen : (List.intercalate [c] segs).length < npos)
    (hget : getenv envvar = some (List.intercalate [c] segs))
    (hget' : getenv' envvar =
      some (List.intercalate [c] (segs.filter (fun seg => decide (seg ≠ []))))) :
    ∃ dict dict', Dictionary.new getenv envvar [c] = .ok dict ∧
      Dictionary.new getenv' envvar [c] = .ok dict' ∧
      Dictionary.GetStore dict = Dictionary.GetStore dict' := by
  have hc' : ∀ x ∈ segs.filter (fun seg => decide (seg ≠ [])), c ∉ x :=
    fun x hx => hc x (List.mem_of_mem_filter hx)
  have hlen' : (List.intercalate [c] (segs.filter (fun seg => decide (seg ≠ [])))).length < npos :=
    Nat.lt_of_le_of_lt (intercalate_filter_length_le _ _ segs) hlen
  refine ⟨_, _, Dictionary.new_join getenv envvar c segs hc hlen hget,
    Dictionary.new_join getenv' envvar c _ hc' hlen' hget', ?_⟩
  exact (foldl_insertSegment_filter segs []).symm

/-- Instance of C7: the values `A=1;;B=2` and `A=1;B=2`. -/
theorem C7_empty_segments_skipped_witness :
    ∃ dict dict', Dictionary.new (constEnv "A=1;;B=2") "ENVVAR".toList [';'] = .ok dict ∧
      Dictionary.new (constEnv "A=1;B=2") "ENVVAR".toList [';'] = .ok dict' ∧
      Dictionary.GetStore dict = Dictionary.GetStore dict' :=
  C7_empty_segments_skipped (constEnv "A=1;;B=2") (constEnv "A=1;B=2") "ENVVAR".toList ';'
    ["A=1".toList, [], "B=2".toList] (by decide) (by decide) rfl rfl

/-- C8: when the name is a key of the cache, `GetDictionary` returns the stored
dictionary and leaves the cache as it is, whatever the delimiter and the
environment; and once a call of `GetDictionary` has returned a dictionary for a
name, a later call for that name with any other delimiter returns that same
dictionary, not a new parse. -/
theorem C8_cache_hit (getenv getenv' : Env) (instance_ : DictionaryList)
    (envvar delim delim' : List Char) :
    (∀ dict, StdMap.find instance_ envvar = some dict →
      GetDictionary getenv instance_ envvar delim = .ok (dict, instance_)) ∧
    (∀ dict instance', GetDictionary getenv instance_ envvar delim = .ok (dict, instance') →
      GetDictionary getenv' instance' envvar delim' = .ok (dict, instance')) := by
  refine ⟨fun dict h => GetDictionary_hit getenv instance_ envvar delim dict h, ?_⟩
  intro dict instance' hcall
  apply GetDictionary_hit
  unfold GetDictionary at hcall
  cases hc : StdMap.find instance_ envvar with
  | some x =>
    rw [hc] at hcall
    cases hcall
    exact hc
  | none =>
    rw [hc] at hcall
    cases hn : Dictionary.new getenv envvar delim with
    | error e => rw [hn] at hcall; cases hcall
    | ok y =>
      rw [hn] at hcall
      cases hcall
      rw [StdMap.find_insert, hc]
      simp

/-- Instance of C8: the variable `V` is `a=1,b=2;c`; the first call uses `;`,
the second `,`, and the second call returns the dictionary parsed with `;`. -/
theorem C8_cache_hit_witness :
    GetDictionary (constEnv "a=1,b=2;c") [] "V".toList ";".toList =
      .ok (⟨true, "a=1,b=2;c".toList, [("a".toList, "1,b=2".toList), ("c".toList, [])]⟩,
        [("V".toList,
          ⟨true, "a=1,b=2;c".toList, [("a".toList, "1,b=2".toList), ("c".toList, [])]⟩)]) ∧
    GetDictionary (constEnv "a=1,b=2;c")
        [("V".toList,
          ⟨true, "a=1,b=2;c".toList, [("a".toList, "1,b=2".toList), ("c".toList, [])]⟩)]
        "V".toList ",".toList =
      .ok (⟨true, "a=1,b=2;c".toList, [("a".toList, "1,b=2".toList), ("c".toList, [])]⟩,
        [("V".toList,
          ⟨true, "a=1,b=2;c".toList, [("a".toList, "1,b=2".toList), ("c".toList, [])]⟩)]) :=
  ⟨rfl, (C8_cache_hit (constEnv "a=1,b=2;c") (constEnv "a=1,b=2;c") [] "V".toList ";".toList
    ",".toList).2 _ _ rfl⟩

/-- C9: `Clear()` leaves the cache empty whatever it held, and the first
`GetDictionary(envvar, delim)` after it does what the constructor does on the
environment of that call with that delimiter: it returns the newly built
dictionary and caches it as the only binding (and throws when the constructor
throws). With a non-empty delimiter the constructor returns, so the call
returns the dictionary built from the current value. -/
theorem C9_Clear_then_GetDictionary (getenv : Env) (instance_ : DictionaryList)
    (envvar delim : List Char) :
    Clear instance_ = [] ∧
    GetDictionary getenv (Clear instance_) envvar delim =
      (match Dictionary.new getenv envvar delim with
       | .ok dict => .ok (dict, [(envvar, dict)])
       | .error e => .error e) ∧
    (delim ≠ [] → (∀ s, getenv envvar = some s → s.length < npos) →
      ∃ dict, Dictionary.new getenv envvar delim = .ok dict ∧
        GetDictionary getenv (Clear instance_) envvar delim = .ok (dict, [(envvar, dict)])) := by
  have hcall : GetDictionary getenv (Clear instance_) envvar delim =
      (match Dictionary.new getenv envvar delim with
       | .ok dict => .ok (dict, [(envvar, dict)])
       | .error e => .error e) := by
    unfold GetDictionary Clear StdMap.clear
    simp only [StdMap.find]
    cases Dictionary.new getenv envvar delim with
    | error e => rfl
    | ok dict => rfl
  refine ⟨rfl, hcall, ?_⟩
  intro hd hlen
  obtain ⟨dict, hdict⟩ := Dictionary.new_total getenv envvar delim hd hlen
  refine ⟨dict, hdict, ?_⟩
  rw [hcall, hdict]

/-- Instance of C9: the cache holds a dictionary of `V` parsed with `;` from an
older value; after `Clear()` the variable is `a,b` and the delimiter is `,`. -/
theorem C9_Clear_then_GetDictionary_witness :
    ∃ dict, Dictionary.new (constEnv "a,b") "V".toList ",".toList = .ok dict ∧
      GetDictionary (constEnv "a,b")
        (Clear [("V".toList, ⟨true, "x;y".toList, [("x".toList, []), ("y".toList, [])]⟩)])
        "V".toList ",".toList = .ok (dict, [("V".toList, dict)]) :=
  (C9_Clear_then_GetDictionary (constEnv "a,b")
    [("V".toList, ⟨true, "x;y".toList, [("x".toList, []), ("y".toList, [])]⟩)]
    "V".toList ",".toList).2.2 (by decide)
    (fun s hs => by
      have h : s = "a,b".toList := (Option.some.inj hs).symm
      rw [h]
      decide)

theorem step_preserves (st : Env × DictionaryList) (call : Call) (name : List Char)
    (d : Dictionary) (hfind : StdMap.find st.2 name = some d) :
    StdMap.find (step st call).2 name = some d := by
  cases call with
  | GetDictionary envvar delim =>
    simp only [step]
    cases hcall : GetDictionary st.1 st.2 envvar delim with
    | error e => exact hfind
    | ok r =>
      obtain ⟨dict, instance'⟩ := r
      exact GetDictionary_preserves st.1 st.2 instance' envvar delim name dict d hfind hcall
  | Get envvar key delim =>
    simp only [step, Get]
    cases hcall : GetDictionary st.1 st.2 envvar delim with
    | error e => exact hfind
    | ok r =>
      obtain ⟨dict, instance'⟩ := r
      exact GetDictionary_preserves st.1 st.2 instance' envvar delim name dict d hfind hcall
  | setEnvironment getenv => exact hfind

theorem run_preserves (name : List Char) (d : Dictionary) :
    ∀ (calls : List Call) (st : Env × DictionaryList), StdMap.find st.2 name = some d →
      StdMap.find (run st calls).2 name = some d := by
  intro calls
  induction calls with
  | nil => intro st h; exact h
  | cons call rest ih =>
    intro st h
    exact ih (step st call) (step_preserves st call name d h)

/-- C10: along every sequence of `GetDictionary` calls, `Get` calls and changes
of the environment (no `Clear()`), a name that is in the cache stays bound to
the dictionary it has: after the sequence the cache still maps the name to that
dictionary, and `Get` for that name, with any key and delimiter, answers from
it and leaves the cache as it is. -/
theorem C10_cached_binding_is_permanent (calls : List Call) (st : Env × DictionaryList)
    (envvar : List Char) (dict : Dictionary) (hfind : StdMap.find st.2 envvar = some dict) :
    StdMap.find (run st calls).2 envvar = some dict ∧
    ∀ key delim, Get (run st calls).1 (run st calls).2 envvar key delim =
      .ok (Dictionary.Get dict key, (run st calls).2) := by
  have h := run_preserves envvar dict calls st hfind
  refine ⟨h, ?_⟩
  intro key delim
  unfold Get
  rw [GetDictionary_hit _ _ envvar delim dict h]

/-- Instance of C10: `V` was cached from `a=1;b` with `;`; after the events
of `sampleCalls` the cache still holds that dictionary and `Get("V", "a", ",")`
answers `(true, "1")`. -/
theorem C10_cached_binding_is_permanent_witness :
    StdMap.find (run sampleState sampleCalls).2 "V".toList = some sampleDict ∧
    Get (run sampleState sampleCalls).1 (run sampleState sampleCalls).2
      "V".toList "a".toList ",".toList =
      .ok ((true, "1".toList), (run sampleState sampleCalls).2) :=
  ⟨(C10_cached_binding_is_permanent sampleCalls sampleState "V".toList sampleDict rfl).1,
    (C10_cached_binding_is_permanent sampleCalls sampleState "V".toList sampleDict rfl).2
      "a".toList ",".toList⟩


/-! ## The cache on a miss, and the empty delimiter -/

theorem GetDictionary_miss (getenv : Env) (instance_ : DictionaryList)
    (envvar delim : List Char) (hmiss : StdMap.find instance_ envvar = none) :
    GetDictionary getenv instance_ envvar delim =
      (match Dictionary.new getenv envvar delim with
       | .ok dict => .ok (dict, instance_ ++ [(envvar, dict)])
       | .error e => .error e) := by
  unfold GetDictionary
  rw [hmiss]
  cases Dictionary.new getenv envvar delim with
  | error e => rfl
  | ok dict =>
    simp only [StdMap.insert, hmiss]

/-- With a non-empty delimiter `GetDictionary` returns. -/
theorem GetDictionary_total (getenv : Env) (instance_ : DictionaryList)
    (envvar delim : List Char) (hd : delim ≠ [])
    (hlen : ∀ s, getenv envvar = some s → s.length < npos) :
    ∃ dict instance', GetDictionary getenv instance_ envvar delim = .ok (dict, instance') := by
  cases hfind : StdMap.find instance_ envvar with
  | some dict => exact ⟨dict, instance_, GetDictionary_hit getenv instance_ envvar delim dict hfind⟩
  | none =>
    obtain ⟨dict, hdict⟩ := Dictionary.new_total getenv envvar delim hd hlen
    refine ⟨dict, instance_ ++ [(envvar, dict)], ?_⟩
    rw [GetDictionary_miss getenv instance_ envvar delim hfind, hdict]

theorem find_nil_delim (v : List Char) (cur : Nat) (hcur : cur ≤ v.length) :
    find v [] cur = cur := by
  unfold find
  rw [if_neg (by omega)]
  cases v.drop cur with
  | nil => rfl
  | cons a t => rfl

/-- With the empty delimiter the loop walks through every position of the
value and then asks for a substring from beyond its end. -/
theorem parseLoop_empty_delimiter (v : List Char) (hv : v.length < npos) :
    ∀ (fuel cur next : Nat) (m : KeyValueStore), cur ≤ v.length + 1 →
      v.length + 2 ≤ fuel + cur → next ≠ npos →
      parseLoop v [] fuel cur next m = .error .out_of_range := by
  intro fuel
  induction fuel with
  | zero =>
    intro cur next m hcur hfuel
    omega
  | succ fuel ih =>
    intro cur next m hcur hfuel hnext
    by_cases hin : cur ≤ v.length
    · rw [parseLoop_step_found v [] fuel cur next cur m hv hnext (find_nil_delim v cur hin)
        (Nat.le_refl _) hin]
      exact ih _ _ _ (by omega) (by omega) (by omega)
    · have hsub : substr v cur (subSz (find v [] cur) cur) = .error .out_of_range := by
        unfold substr
        rw [if_pos (by omega)]
      rw [parseLoop, if_neg hnext]
      simp only [hsub]

/-- The constructor throws `std::out_of_range` for the empty delimiter and
every non-empty value. -/
theorem Dictionary.new_empty_delimiter (getenv : Env) (envvar s : List Char) (hs : s ≠ [])
    (hlen : s.length < npos) (hget : getenv envvar = some s) :
    Dictionary.new getenv envvar [] = .error .out_of_range := by
  unfold Dictionary.new
  rw [hget]
  simp only
  rw [if_pos hs, parseLoop_empty_delimiter s hlen (s.length + 2) 0 0 [] (Nat.zero_le _)
    (Nat.le_refl _) (by decide)]

/-! ## The claims on the cache and the accessor -/

/-- C11: when the name is not a key of the cache, `GetDictionary` does what the
constructor does on the current environment with the given delimiter and, when
the constructor returns a dictionary, returns it and adds the one binding of
the name to it: the new cache is the old one followed by that binding, the name
is bound to the dictionary and the lookup of every other name is unchanged.
With a non-empty delimiter the constructor returns. -/
theorem C11_cache_miss (getenv : Env) (instance_ : DictionaryList) (envvar delim : List Char)
    (hmiss : StdMap.find instance_ envvar = none) :
    GetDictionary getenv instance_ envvar delim =
      (match Dictionary.new getenv envvar delim with
       | .ok dict => .ok (dict, instance_ ++ [(envvar, dict)])
       | .error e => .error e) ∧
    (∀ dict instance', GetDictionary getenv instance_ envvar delim = .ok (dict, instance') →
      Dictionary.new getenv envvar delim = .ok dict ∧
      instance' = instance_ ++ [(envvar, dict)] ∧
      StdMap.find instance' envvar = some dict ∧
      ∀ name, name ≠ envvar → StdMap.find instance' name = StdMap.find instance_ name) ∧
    (delim ≠ [] → (∀ s, getenv envvar = some s → s.length < npos) →
      ∃ dict, Dictionary.new getenv envvar delim = .ok dict ∧
        GetDictionary getenv instance_ envvar delim =
          .ok (dict, instance_ ++ [(envvar, dict)])) := by
  have hcall := GetDictionary_miss getenv instance_ envvar delim hmiss
  refine ⟨hcall, ?_, ?_⟩
  · intro dict instance' hok
    rw [hcall] at hok
    cases hn : Dictionary.new getenv envvar delim with
    | error e => rw [hn] at hok; cases hok
    | ok y =>
      rw [hn] at hok
      cases hok
      refine ⟨rfl, rfl, ?_, ?_⟩
      · rw [StdMap.find_append, hmiss]
        simp [StdMap.find]
      · intro name hname
        rw [StdMap.find_append]
        cases StdMap.find instance_ name with
        | some x => rfl
        | none => simp [StdMap.find, Ne.symm hname]
  · intro hd hlen
    obtain ⟨dict, hdict⟩ := Dictionary.new_total getenv envvar delim hd hlen
    refine ⟨dict, hdict, ?_⟩
    rw [hcall, hdict]

/-- Instance of C11: the cache holds `V`; `ENVVAR` is `A=1;B=2;FLAG` and is
asked for with `;`. -/
theorem C11_cache_miss_witness :
    ∃ dict, Dictionary.new (singleEnv "ENVVAR" "A=1;B=2;FLAG") "ENVVAR".toList ";".toList =
        .ok dict ∧
      GetDictionary (singleEnv "ENVVAR" "A=1;B=2;FLAG") [("V".toList, sampleDict)]
        "ENVVAR".toList ";".toList =
        .ok (dict, [("V".toList, sampleDict)] ++ [("ENVVAR".toList, dict)]) :=
  (C11_cache_miss (singleEnv "ENVVAR" "A=1;B=2;FLAG") [("V".toList, sampleDict)]
    "ENVVAR".toList ";".toList rfl).2.2 (by decide)
    (fun s hs => by
      have h : s = "A=1;B=2;FLAG".toList := (Option.some.inj hs).symm
      rw [h]
      decide)

/-- C12: the accessor `Get(envvar, key, delim)` is the delegation the spec
describes: it returns what `Dictionary::Get(key)` returns on the dictionary
that `GetDictionary(envvar, delim)` returns, and leaves the cache as that call
of `GetDictionary` leaves it (and throws when that call throws). With a
non-empty delimiter both calls return. -/
theorem C12_Get_is_delegation (getenv : Env) (instance_ : DictionaryList)
    (envvar key delim : List Char) :
    Get getenv instance_ envvar key delim = GetSpec getenv instance_ envvar key delim ∧
    (delim ≠ [] → (∀ s, getenv envvar = some s → s.length < npos) →
      ∃ dict instance', GetDictionary getenv instance_ envvar delim = .ok (dict, instance') ∧
        Get getenv instance_ envvar key delim = .ok (Dictionary.Get dict key, instance')) := by
  have heq : Get getenv instance_ envvar key delim =
      GetSpec getenv instance_ envvar key delim := by
    unfold Get GetSpec
    cases GetDictionary getenv instance_ envvar delim with
    | error e => rfl
    | ok r => rfl
  refine ⟨heq, ?_⟩
  intro hd hlen
  obtain ⟨dict, instance', hcall⟩ := GetDictionary_total getenv instance_ envvar delim hd hlen
  refine ⟨dict, instance', hcall, ?_⟩
  unfold Get
  rw [hcall]

/-- Instance of C12: `ENVVAR` is `A=1;B=2;FLAG`, the cache is empty, the key is
`B` and the delimiter `;`. -/
theorem C12_Get_is_delegation_witness :
    ∃ dict instance',
      GetDictionary (singleEnv "ENVVAR" "A=1;B=2;FLAG") [] "ENVVAR".toList ";".toList =
        .ok (dict, instance') ∧
      Get (singleEnv "ENVVAR" "A=1;B=2;FLAG") [] "ENVVAR".toList "B".toList ";".toList =
        .ok (Dictionary.Get dict "B".toList, instance') :=
  (C12_Get_is_delegation (singleEnv "ENVVAR" "A=1;B=2;FLAG") [] "ENVVAR".toList "B".toList
    ";".toList).2 (by decide)
    (fun s hs => by
      have h : s = "A=1;B=2;FLAG".toList := (Option.some.inj hs).symm
      rw [h]
      decide)

/-- C13, at an input where it fails: with `ENVVAR` set to `A=1;B=2;FLAG` and
the empty delimiter, `GetDictionary` and `Get` do not complete normally; the
constructor throws `std::out_of_range` and the exception leaves both. -/
theorem C13_empty_delimiter_raises :
    GetDictionary (singleEnv "ENVVAR" "A=1;B=2;FLAG") [] "ENVVAR".toList [] =
      .error .out_of_range ∧
    Get (singleEnv "ENVVAR" "A=1;B=2;FLAG") [] "ENVVAR".toList "A".toList [] =
      .error .out_of_range :=
  ⟨rfl, rfl⟩

/-- C14: with `ENVVAR` set to `A=1;B=2;FLAG`, the delimiter `;` and an empty
cache, the accessor returns `(true, "1")` for `A`, `(true, "2")` for `B`,
`(true, "")` for `FLAG`, `(true, "A=1;B=2;FLAG")` for the empty key and
`(false, "")` for `MISSING`, each time leaving the cache with the one
dictionary of `ENVVAR`; the same answers come from that cache. -/
theorem C14_ENVVAR_example :
    (Get (singleEnv "ENVVAR" "A=1;B=2;FLAG") [] "ENVVAR".toList "A".toList ";".toList =
        .ok ((true, "1".toList), [("ENVVAR".toList, envvarDict)]) ∧
      Get (singleEnv "ENVVAR" "A=1;B=2;FLAG") [] "ENVVAR".toList "B".toList ";".toList =
        .ok ((true, "2".toList), [("ENVVAR".toList, envvarDict)]) ∧
      Get (singleEnv "ENVVAR" "A=1;B=2;FLAG") [] "ENVVAR".toList "FLAG".toList ";".toList =
        .ok ((true, []), [("ENVVAR".toList, envvarDict)]) ∧
      Get (singleEnv "ENVVAR" "A=1;B=2;FLAG") [] "ENVVAR".toList [] ";".toList =
        .ok ((true, "A=1;B=2;FLAG".toList), [("ENVVAR".toList, envvarDict)]) ∧
      Get (singleEnv "ENVVAR" "A=1;B=2;FLAG") [] "ENVVAR".toList "MISSING".toList ";".toList =
        .ok ((false, []), [("ENVVAR".toList, envvarDict)])) ∧
    (Get (singleEnv "ENVVAR" "A=1;B=2;FLAG") [("ENVVAR".toList, envvarDict)]
        "ENVVAR".toList "A".toList ";".toList =
        .ok ((true, "1".toList), [("ENVVAR".toList, envvarDict)]) ∧
      Get (singleEnv "ENVVAR" "A=1;B=2;FLAG") [("ENVVAR".toList, envvarDict)]
        "ENVVAR".toList "B".toList ";".toList =
        .ok ((true, "2".toList), [("ENVVAR".toList, envvarDict)]) ∧
      Get (singleEnv "ENVVAR" "A=1;B=2;FLAG") [("ENVVAR".toList, envvarDict)]
        "ENVVAR".toList "FLAG".toList ";".toList =
        .ok ((true, []), [("ENVVAR".toList, envvarDict)]) ∧
      Get (singleEnv "ENVVAR" "A=1;B=2;FLAG") [("ENVVAR".toList, envvarDict)]
        "ENVVAR".toList [] ";".toList =
        .ok ((true, "A=1;B=2;FLAG".toList), [("ENVVAR".toList, envvarDict)]) ∧
      Get (singleEnv "ENVVAR" "A=1;B=2;FLAG") [("ENVVAR".toList, envvarDict)]
        "ENVVAR".toList "MISSING".toList ";".toList =
        .ok ((false, []), [("ENVVAR".toList, envvarDict)])) :=
  ⟨⟨rfl, rfl, rfl, rfl, rfl⟩, ⟨rfl, rfl, rfl, rfl, rfl⟩⟩

/-- C17: when the variable is absent, or present with the empty string as its
value, the constructor returns, for every delimiter, a dictionary whose store
is empty, and `Get` reports `(false, "")` for every non-empty key. -/
theorem C17_no_entries (getenv : Env) (envvar delim : List Char)
    (h : getenv envvar = none ∨ getenv envvar = some []) :
    ∃ dict, Dictionary.new getenv envvar delim = .ok dict ∧
      Dictionary.GetStore dict = [] ∧
      ∀ key, key ≠ [] → Dictionary.Get dict key = (false, []) := by
  rcases h with h | h
  · refine ⟨{ m_exists := false, m_variable := [], m_dict := [] }, ?_, rfl, fun key _ => rfl⟩
    unfold Dictionary.new
    rw [h]
  · refine ⟨{ m_exists := true, m_variable := [], m_dict := [] }, ?_, rfl, ?_⟩
    · unfold Dictionary.new
      rw [h]
      rfl
    · intro key hkey
      cases key with
      | nil => exact absurd rfl hkey
      | cons a t => rfl

/-- Instance of C17: no variable set, and a variable set to the empty string,
both with the empty delimiter. -/
theorem C17_no_entries_witness :
    (∃ dict, Dictionary.new emptyEnv "ENVVAR".toList [] = .ok dict ∧
      Dictionary.GetStore dict = [] ∧
      ∀ key, key ≠ [] → Dictionary.Get dict key = (false, [])) ∧
    (∃ dict, Dictionary.new (constEnv "") "ENVVAR".toList [] = .ok dict ∧
      Dictionary.GetStore dict = [] ∧
      ∀ key, key ≠ [] → Dictionary.Get dict key = (false, [])) :=
  ⟨C17_no_entries emptyEnv "ENVVAR".toList [] (Or.inl rfl),
    C17_no_entries (constEnv "") "ENVVAR".toList [] (Or.inr rfl)⟩


/-! ## What the search tells about a segment -/

/-- The search of a non-empty delimiter either fails, and the text does not
contain the delimiter, or finds it at an offset `k`, and the text before that
offset does not contain it. -/
theorem findFrom_cases (d : List Char) (hd : d ≠ []) :
    ∀ (t : List Char) (i : Nat), i + t.length < npos →
      (findFrom d t i = npos ∧ ¬ d <:+: t) ∨
      (∃ k, findFrom d t i = i + k ∧ k + d.length ≤ t.length ∧ ¬ d <:+: t.take k) := by
  intro t
  induction t with
  | nil =>
    intro i _
    left
    have hp : ¬ d.isPrefixOf [] = true := fun hp =>
      hd (List.prefix_nil.mp (List.isPrefixOf_iff_prefix.mp hp))
    refine ⟨by simp [findFrom, hp], fun h => hd (List.infix_nil.mp h)⟩
  | cons a t ih =>
    intro i hi
    simp only [List.length_cons] at hi
    by_cases hp : d.isPrefixOf (a :: t) = true
    · right
      refine ⟨0, by rw [findFrom, if_pos hp]; rfl, ?_, ?_⟩
      · have := (List.isPrefixOf_iff_prefix.mp hp).length_le
        omega
      · rw [List.take_zero]
        exact fun h => hd (List.infix_nil.mp h)
    · have hnp : ¬ d <+: a :: t := fun h => hp (List.isPrefixOf_iff_prefix.mpr h)
      rcases ih (i + 1) (by omega) with ⟨h1, h2⟩ | ⟨k, h1, h2, h3⟩
      · left
        refine ⟨by rw [findFrom, if_neg hp]; exact h1, ?_⟩
        intro h
        rcases List.infix_cons_iff.mp h with h | h
        · exact hnp h
        · exact h2 h
      · right
        refine ⟨k + 1, by rw [findFrom, if_neg hp, h1]; omega, ?_, ?_⟩
        · simp only [List.length_cons]
          omega
        · rw [List.take_succ_cons]
          intro h
          rcases List.infix_cons_iff.mp h with h | h
          · exact hnp (h.trans ((List.prefix_cons_inj a).mpr (List.take_prefix k t)))
          · exact h3 h

theorem find_cases (v d : List Char) (hd : d ≠ []) (hv : v.length < npos) (cur : Nat)
    (hcur : cur ≤ v.length) :
    (find v d cur = npos ∧ ¬ d <:+: v.drop cur) ∨
    (∃ k, find v d cur = cur + k ∧ cur + k + d.length ≤ v.length ∧
      ¬ d <:+: (v.drop cur).take k) := by
  unfold find
  rw [if_neg (by omega)]
  rcases findFrom_cases d hd (v.drop cur) cur (by rw [List.length_drop]; omega) with h | h
  · exact Or.inl h
  · obtain ⟨k, h1, h2, h3⟩ := h
    rw [List.length_drop] at h2
    exact Or.inr ⟨k, h1, by omega, h3⟩

theorem keyOf_in_segment (seg : List Char) : keyOf seg <:+: seg :=
  (List.takeWhile_prefix _).isInfix

theorem valueOf_in_segment (seg : List Char) : valueOf seg <:+: seg :=
  ((List.drop_suffix 1 _).trans (List.dropWhile_suffix _)).isInfix

/-! ## Invariants of the loop -/

/-- A property of the store that every insertion of a segment satisfying `S`
keeps is kept by the loop, when the segments the loop cuts out satisfy `S`. -/
theorem parseLoop_invariant (v d : List Char) (hv : v.length < npos)
    (P : KeyValueStore → Prop) (S : List Char → Prop)
    (hfound : ∀ cur k, cur ≤ v.length → find v d cur = cur + k → cur + k ≤ v.length →
      S ((v.drop cur).take k))
    (hlast : ∀ cur, cur ≤ v.length → find v d cur = npos → S (v.drop cur))
    (hstep : ∀ m seg, P m → S seg → P (insertSegment m seg)) :
    ∀ (fuel cur next : Nat) (m m' : KeyValueStore), P m →
      parseLoop v d fuel cur next m = .ok m' → P m' := by
  intro fuel
  induction fuel with
  | zero =>
    intro cur next m m' _ h
    simp [parseLoop] at h
  | succ fuel ih =>
    intro cur next m m' hP h
    by_cases hnext : next = npos
    · rw [hnext, parseLoop_exit] at h
      cases h
      exact hP
    · by_cases hin : cur ≤ v.length
      · rcases find_bounds v d cur with hf | hf
        · cases fuel with
          | zero =>
            rw [parseLoop, if_neg hnext] at h
            simp only [hf] at h
            rw [substr_ok _ _ _ hin] at h
            simp only [parseLoop] at h
            split at h
            · split at h <;> cases h
            · cases h
          | succ f =>
            rw [parseLoop_step_last v d f cur next m hv hnext hf hin] at h
            cases h
            exact hstep _ _ hP (hlast cur hin hf)
        · rw [parseLoop_step_found v d fuel cur next _ m hv hnext rfl hf.1 (by omega)] at h
          refine ih _ _ _ m' (hstep _ _ hP ?_) h
          have hk : find v d cur = cur + (find v d cur - cur) := by omega
          exact hfound cur _ hin hk (by omega)
      · have hsub : substr v cur (subSz (find v d cur) cur) = .error .out_of_range := by
          unfold substr
          rw [if_pos (by omega)]
        rw [parseLoop, if_neg hnext] at h
        simp only [hsub] at h
        cases h

theorem mem_insert {β : Type} (m : StdMap β) (k : List Char) (v : β) (p : List Char × β)
    (h : p ∈ StdMap.insert m k v) : p ∈ m ∨ p = (k, v) := by
  unfold StdMap.insert at h
  cases hf : StdMap.find m k with
  | some x =>
    rw [hf] at h
    exact Or.inl h
  | none =>
    rw [hf] at h
    simp only [List.mem_append, List.mem_singleton] at h
    exact h

theorem mem_insertSegment (m : KeyValueStore) (seg : List Char) (p : List Char × List Char)
    (h : p ∈ insertSegment m seg) : p ∈ m ∨ p = (keyOf seg, valueOf seg) := by
  unfold insertSegment at h
  by_cases hs : seg = []
  · rw [if_neg (by simp [hs])] at h
    exact Or.inl h
  · rw [if_pos hs] at h
    exact mem_insert m _ _ p h

theorem mem_of_find {β : Type} (m : StdMap β) (k : List Char) (v : β)
    (h : StdMap.find m k = some v) : (k, v) ∈ m := by
  induction m with
  | nil => cases h
  | cons p m ih =>
    obtain ⟨k', v'⟩ := p
    by_cases hk : k' = k
    · simp only [StdMap.find, if_pos hk] at h
      cases h
      rw [hk]
      exact List.mem_cons_self _ _
    · simp only [StdMap.find, if_neg hk] at h
      exact List.mem_cons_of_mem _ (ih h)

/-- The store of a dictionary the constructor returns is what the loop returns
on the value, or is empty. -/
theorem Dictionary.new_store (getenv : Env) (envvar delim : List Char) (dict : Dictionary)
    (hdict : Dictionary.new getenv envvar delim = .ok dict) :
    dict.m_dict = [] ∨
    ∃ s, getenv envvar = some s ∧ parseLoop s delim (s.length + 2) 0 0 [] = .ok dict.m_dict := by
  unfold Dictionary.new at hdict
  cases hget : getenv envvar with
  | none =>
    rw [hget] at hdict
    cases hdict
    exact Or.inl rfl
  | some s =>
    rw [hget] at hdict
    simp only at hdict
    by_cases hs : s = []
    · rw [if_neg (by simp [hs])] at hdict
      cases hdict
      exact Or.inl rfl
    · rw [if_pos hs] at hdict
      cases hl : parseLoop s delim (s.length + 2) 0 0 [] with
      | error e => rw [hl] at hdict; cases hdict
      | ok m =>
        rw [hl] at hdict
        cases hdict
        exact Or.inr ⟨s, rfl, hl⟩

/-! ## The claims on the entries -/

/-- C16: for a non-empty delimiter `d`, the constructor returns a dictionary,
and no key and no value of its store contains `d` as a substring. -/
theorem C16_no_delimiter_in_entries (getenv : Env) (envvar d : List Char) (hd : d ≠ [])
    (hlen : ∀ s, getenv envvar = some s → s.length < npos) :
    ∃ dict, Dictionary.new getenv envvar d = .ok dict ∧
      (∀ k v, StdMap.find (Dictionary.GetStore dict) k = some v → ¬ d <:+: k ∧ ¬ d <:+: v) ∧
      ∀ p ∈ Dictionary.GetStore dict, ¬ d <:+: p.1 ∧ ¬ d <:+: p.2 := by
  obtain ⟨dict, hdict⟩ := Dictionary.new_total getenv envvar d hd hlen
  have hall : ∀ p ∈ dict.m_dict, ¬ d <:+: p.1 ∧ ¬ d <:+: p.2 := by
    rcases Dictionary.new_store getenv envvar d dict hdict with h | ⟨s, hget, hloop⟩
    · rw [h]
      intro p hp
      cases hp
    · have hv := hlen s hget
      refine parseLoop_invariant s d hv
        (fun m => ∀ p ∈ m, ¬ d <:+: p.1 ∧ ¬ d <:+: p.2) (fun seg => ¬ d <:+: seg)
        ?_ ?_ ?_ (s.length + 2) 0 0 [] dict.m_dict (fun p hp => by cases hp) hloop
      · intro cur k hcur hfind hk
        rcases find_cases s d hd hv cur hcur with ⟨h1, _⟩ | ⟨k', h1, _, h3⟩
        · omega
        · have hkk : k = k' := by omega
          rw [hkk]
          exact h3
      · intro cur hcur hfind
        rcases find_cases s d hd hv cur hcur with ⟨_, h2⟩ | ⟨k', h1, h2, _⟩
        · exact h2
        · omega
      · intro m seg hm hseg p hp
        rcases mem_insertSegment m seg p hp with h | h
        · exact hm p h
        · rw [h]
          exact ⟨fun hk => hseg (hk.trans (keyOf_in_segment seg)),
            fun hk => hseg (hk.trans (valueOf_in_segment seg))⟩
  refine ⟨dict, hdict, ?_, hall⟩
  intro k v hfind
  exact hall (k, v) (mem_of_find _ k v hfind)

/-- Instance of C16: the value `a::b:::c=::` with the delimiter `::`. -/
theorem C16_no_delimiter_in_entries_witness :
    ∃ dict, Dictionary.new (constEnv "a::b:::c=::") "ENVVAR".toList "::".toList = .ok dict ∧
      (∀ k v, StdMap.find (Dictionary.GetStore dict) k = some v →
        ¬ "::".toList <:+: k ∧ ¬ "::".toList <:+: v) ∧
      ∀ p ∈ Dictionary.GetStore dict, ¬ "::".toList <:+: p.1 ∧ ¬ "::".toList <:+: p.2 :=
  C16_no_delimiter_in_entries (constEnv "a::b:::c=::") "ENVVAR".toList "::".toList (by decide)
    (fun s hs => by
      have h : s = "a::b:::c=::".toList := (Option.some.inj hs).symm
      rw [h]
      decide)

/-- C20: whatever the delimiter, when the constructor returns a dictionary, no
key of its store contains the character `=`. -/
theorem C20_no_equal_sign_in_keys (getenv : Env) (envvar delim : List Char) (dict : Dictionary)
    (hlen : ∀ s, getenv envvar = some s → s.length < npos)
    (hdict : Dictionary.new getenv envvar delim = .ok dict) :
    (∀ k v, StdMap.find (Dictionary.GetStore dict) k = some v → '=' ∉ k) ∧
    ∀ p ∈ Dictionary.GetStore dict, '=' ∉ p.1 := by
  have hall : ∀ p ∈ dict.m_dict, '=' ∉ p.1 := by
    rcases Dictionary.new_store getenv envvar delim dict hdict with h | ⟨s, hget, hloop⟩
    · rw [h]
      intro p hp
      cases hp
    · refine parseLoop_invariant s delim (hlen s hget)
        (fun m => ∀ p ∈ m, '=' ∉ p.1) (fun _ => True)
        (fun _ _ _ _ _ => trivial) (fun _ _ _ => trivial) ?_
        (s.length + 2) 0 0 [] dict.m_dict (fun p hp => by cases hp) hloop
      intro m seg hm _ p hp
      rcases mem_insertSegment m seg p hp with h | h
      · exact hm p h
      · rw [h]
        exact eq_not_mem_keyOf seg
  exact ⟨fun k v hfind => hall (k, v) (mem_of_find _ k v hfind), hall⟩

/-- Instance of C20: the value `X=a=b;=v;FOO=` with the delimiter `;`. -/
theorem C20_no_equal_sign_in_keys_witness :
    (∀ k v, StdMap.find (Dictionary.GetStore
        ⟨true, "X=a=b;=v;FOO=".toList,
          [("X".toList, "a=b".toList), ([], "v".toList), ("FOO".toList, [])]⟩) k = some v →
      '=' ∉ k) ∧
    ∀ p ∈ Dictionary.GetStore
        ⟨true, "X=a=b;=v;FOO=".toList,
          [("X".toList, "a=b".toList), ([], "v".toList), ("FOO".toList, [])]⟩, '=' ∉ p.1 :=
  C20_no_equal_sign_in_keys (constEnv "X=a=b;=v;FOO=") "ENVVAR".toList ";".toList
    ⟨true, "X=a=b;=v;FOO=".toList,
      [("X".toList, "a=b".toList), ([], "v".toList), ("FOO".toList, [])]⟩
    (fun s hs => by
      have h : s = "X=a=b;=v;FOO=".toList := (Option.some.inj hs).symm
      rw [h]
      decide)
    rfl


/-! ## Tokens -/

theorem takeWhile_token (v : List Char) :
    ∀ (k : List Char), '=' ∉ k → (k ++ '=' :: v).takeWhile (fun ch => ch != '=') = k := by
  intro k
  induction k with
  | nil =>
    intro _
    rw [List.nil_append, List.takeWhile_cons_of_neg (by decide)]
  | cons a k ih =>
    intro h
    have ha : a ≠ '=' := fun e => h (by simp [e])
    have hk : '=' ∉ k := fun hk => h (List.mem_cons_of_mem _ hk)
    rw [List.cons_append, List.takeWhile_cons_of_pos (by simpa using ha), ih hk]

theorem dropWhile_token (v : List Char) :
    ∀ (k : List Char), '=' ∉ k →
      (k ++ '=' :: v).dropWhile (fun ch => ch != '=') = '=' :: v := by
  intro k
  induction k with
  | nil =>
    intro _
    rw [List.nil_append, List.dropWhile_cons_of_neg (by decide)]
  | cons a k ih =>
    intro h
    have ha : a ≠ '=' := fun e => h (by simp [e])
    have hk : '=' ∉ k := fun hk => h (List.mem_cons_of_mem _ hk)
    rw [List.cons_append, List.dropWhile_cons_of_pos (by simpa using ha), ih hk]

theorem keyOf_token (p : List Char × List Char) (h : '=' ∉ p.1) : keyOf (token p) = p.1 :=
  takeWhile_token p.2 p.1 h

theorem valueOf_token (p : List Char × List Char) (h : '=' ∉ p.1) : valueOf (token p) = p.2 := by
  unfold valueOf token
  rw [dropWhile_token p.2 p.1 h]
  rfl

theorem token_ne_nil (p : List Char × List Char) : token p ≠ [] := by
  unfold token
  simp

theorem StdMap.find_eq_none {β : Type} (m : StdMap β) (k : List Char)
    (h : ∀ p ∈ m, p.1 ≠ k) : StdMap.find m k = none := by
  induction m with
  | nil => rfl
  | cons p m ih =>
    obtain ⟨k', v⟩ := p
    have hk : k' ≠ k := h (k', v) (List.mem_cons_self _ _)
    simp only [StdMap.find, if_neg hk]
    exact ih (fun q hq => h q (List.mem_cons_of_mem _ hq))

theorem StdMap.find_iff_mem {β : Type} (m : StdMap β) (hnodup : (m.map Prod.fst).Nodup)
    (k : List Char) (v : β) : StdMap.find m k = some v ↔ (k, v) ∈ m := by
  induction m with
  | nil => simp [StdMap.find]
  | cons p m ih =>
    obtain ⟨k', v'⟩ := p
    rw [List.map_cons, List.nodup_cons] at hnodup
    by_cases hk : k' = k
    · subst hk
      simp only [StdMap.find, if_true, List.mem_cons, Prod.mk.injEq, true_and, Option.some.injEq]
      constructor
      · intro e
        exact Or.inl e.symm
      · intro e
        rcases e with e | e
        · exact e.symm
        · exact absurd (List.mem_map_of_mem Prod.fst e) hnodup.1
    · simp only [StdMap.find, if_neg hk, List.mem_cons, Prod.mk.injEq]
      rw [ih hnodup.2]
      constructor
      · exact fun e => Or.inr e
      · intro e
        rcases e with e | e
        · exact absurd e.1.symm hk
        · exact e

/-- Tokens of pairs with pairwise distinct keys that are not yet in the store
are inserted one after the other. -/
theorem foldl_insertSegment_tokens :
    ∀ (pairs : List (List Char × List Char)) (m : KeyValueStore),
      (∀ p ∈ pairs, '=' ∉ p.1) → (pairs.map Prod.fst).Nodup →
      (∀ p ∈ pairs, ∀ q ∈ m, q.1 ≠ p.1) →
      (pairs.map token).foldl insertSegment m = m ++ pairs := by
  intro pairs
  induction pairs with
  | nil => intro m _ _ _; simp
  | cons p rest ih =>
    intro m heq hnodup hfresh
    rw [List.map_cons, List.nodup_cons] at hnodup
    have hp : '=' ∉ p.1 := heq p (List.mem_cons_self _ _)
    have hins : insertSegment m (token p) = m ++ [p] := by
      rw [insertSegment_of_ne _ _ (token_ne_nil p), keyOf_token p hp, valueOf_token p hp]
      unfold StdMap.insert
      rw [StdMap.find_eq_none m p.1 (hfresh p (List.mem_cons_self _ _))]
    rw [List.map_cons, List.foldl_cons, hins,
      ih (m ++ [p]) (fun q hq => heq q (List.mem_cons_of_mem _ hq)) hnodup.2 ?_]
    · simp
    · intro q hq r hr
      rcases List.mem_append.mp hr with hr | hr
      · exact hfresh q (List.mem_cons_of_mem _ hq) r hr
      · rw [List.mem_singleton] at hr
        rw [hr]
        intro e
        exact hnodup.1 (e ▸ List.mem_map_of_mem Prod.fst hq)

/-- C15: round trip of the format. For a one-character delimiter other than
`=` and pairs whose keys are non-empty, pairwise distinct and free of the
delimiter and of `=`, and whose values are free of the delimiter, the
dictionary built from the tokens `key=value` joined by the delimiter has
exactly these pairs as its store, and `Get(key)` is `(true, value)` for each
pair. -/
theorem C15_round_trip (getenv : Env) (envvar : List Char) (c : Char)
    (pairs : List (List Char × List Char)) (hc : c ≠ '=')
    (hkeys : ∀ p ∈ pairs, p.1 ≠ [] ∧ c ∉ p.1 ∧ '=' ∉ p.1)
    (hvalues : ∀ p ∈ pairs, c ∉ p.2)
    (hdistinct : (pairs.map Prod.fst).Nodup)
    (hlen : (List.intercalate [c] (pairs.map token)).length < npos)
    (hget : getenv envvar = some (List.intercalate [c] (pairs.map token))) :
    ∃ dict, Dictionary.new getenv envvar [c] = .ok dict ∧
      Dictionary.GetStore dict = pairs ∧
      (∀ k v, StdMap.find (Dictionary.GetStore dict) k = some v ↔ (k, v) ∈ pairs) ∧
      ∀ p ∈ pairs, Dictionary.Get dict p.1 = (true, p.2) := by
  have htok : ∀ x ∈ pairs.map token, c ∉ x := by
    intro x hx
    obtain ⟨p, hp, rfl⟩ := List.mem_map.mp hx
    unfold token
    intro hmem
    rcases List.mem_append.mp hmem with h | h
    · exact (hkeys p hp).2.1 h
    · rcases List.mem_cons.mp h with h | h
      · exact hc h
      · exact hvalues p hp h
  have hstore : (pairs.map token).foldl insertSegment [] = pairs := by
    rw [foldl_insertSegment_tokens pairs [] (fun p hp => (hkeys p hp).2.2) hdistinct
      (fun _ _ q hq => by cases hq)]
    rfl
  have hnew := Dictionary.new_join getenv envvar c (pairs.map token) htok hlen hget
  rw [hstore] at hnew
  refine ⟨_, hnew, rfl, fun k v => StdMap.find_iff_mem pairs hdistinct k v, ?_⟩
  intro p hp
  have hk : p.1.isEmpty = false := by
    cases h : p.1 with
    | nil => exact absurd h (hkeys p hp).1
    | cons a t => rfl
  have hfind : StdMap.find pairs p.1 = some p.2 :=
    (StdMap.find_iff_mem pairs hdistinct p.1 p.2).mpr hp
  unfold Dictionary.Get
  simp only [Bool.not_true, Bool.false_eq_true, if_false, hk]
  rw [hfind]

/-- Instance of C15: the pairs `(A, 1)`, `(FOO, )` and `(X, a=b)` with the
delimiter `;`, that is the value `A=1;FOO=;X=a=b`. -/
theorem C15_round_trip_witness :
    ∃ dict, Dictionary.new (constEnv "A=1;FOO=;X=a=b") "ENVVAR".toList [';'] = .ok dict ∧
      Dictionary.GetStore dict =
        [("A".toList, "1".toList), ("FOO".toList, []), ("X".toList, "a=b".toList)] ∧
      (∀ k v, StdMap.find (Dictionary.GetStore dict) k = some v ↔
        (k, v) ∈ [("A".toList, "1".toList), ("FOO".toList, []), ("X".toList, "a=b".toList)]) ∧
      ∀ p ∈ [("A".toList, "1".toList), ("FOO".toList, []), ("X".toList, "a=b".toList)],
        Dictionary.Get dict p.1 = (true, p.2) :=
  C15_round_trip (constEnv "A=1;FOO=;X=a=b") "ENVVAR".toList ';'
    [("A".toList, "1".toList), ("FOO".toList, []), ("X".toList, "a=b".toList)]
    (by decide) (by decide) (by decide) (by decide) (by decide) rfl


/-! ## The recorded scan positions -/

/-- The loop with recording has the outcome of the loop. -/
theorem parseLoopTrace_outcome (v d : List Char) :
    ∀ (fuel cur next : Nat) (m : KeyValueStore),
      (parseLoopTrace v d fuel cur next m).2 = parseLoop v d fuel cur next m := by
  intro fuel
  induction fuel with
  | zero => intro cur next m; rfl
  | succ fuel ih =>
    intro cur next m
    rw [parseLoopTrace, parseLoop]
    by_cases hnext : next = npos
    · rw [if_pos hnext, if_pos hnext]
    · rw [if_neg hnext, if_neg hnext]
      simp only
      cases substr v cur (subSz (find v d cur) cur) with
      | error e => rfl
      | ok keyval =>
        simp only
        by_cases hk : keyval = []
        · rw [if_neg (by simp [hk]), if_neg (by simp [hk])]
          exact ih _ _ _
        · rw [if_pos hk, if_pos hk]
          cases parseKeyVal keyval with
          | error e => rfl
          | ok kv => exact ih _ _ _

theorem parseLoopTrace_found (v d : List Char) (fuel cur next p : Nat) (m : KeyValueStore)
    (hv : v.length < npos) (hnext : next ≠ npos) (hfind : find v d cur = p)
    (hcur : cur ≤ p) (hp : p ≤ v.length) :
    (parseLoopTrace v d (fuel + 1) cur next m).1 =
      (cur, p) ::
        (parseLoopTrace v d fuel (p + 1) p (insertSegment m ((v.drop cur).take (p - cur)))).1 := by
  have hseg : ((v.drop cur).take (p - cur)).length < npos := by
    rw [List.length_take, List.length_drop]
    omega
  rw [parseLoopTrace, if_neg hnext]
  simp only [hfind]
  rw [substr_ok _ _ _ (by omega), subSz_of_le hcur (by omega), addSz_one (by omega)]
  simp only [insertSegment]
  by_cases he : (v.drop cur).take (p - cur) = []
  · simp [he]
  · simp only [ne_eq, he, not_false_eq_true, if_true]
    rw [parseKeyVal_eq _ hseg]

theorem parseLoopTrace_exit (v d : List Char) (fuel cur : Nat) (m : KeyValueStore) :
    parseLoopTrace v d (fuel + 1) cur npos m = ([], .ok m) := by
  rw [parseLoopTrace, if_pos rfl]

theorem parseLoopTrace_last (v d : List Char) (fuel cur next : Nat) (m : KeyValueStore)
    (hv : v.length < npos) (hnext : next ≠ npos) (hfind : find v d cur = npos)
    (hcur : cur ≤ v.length) :
    (parseLoopTrace v d (fuel + 2) cur next m).1 = [(cur, npos)] := by
  have hseg : (v.drop cur).length < npos := by
    rw [List.length_drop]
    omega
  have htake : (v.drop cur).take (npos - cur) = v.drop cur := by
    rw [List.take_of_length_le]
    rw [List.length_drop]
    omega
  rw [parseLoopTrace, if_neg hnext]
  simp only [hfind]
  rw [substr_ok _ _ _ hcur, subSz_of_le (by omega) (Nat.le_refl _), htake]
  by_cases he : v.drop cur = []
  · simp [he, parseLoopTrace_exit]
  · simp only [ne_eq, he, not_false_eq_true, if_true]
    rw [parseKeyVal_eq _ hseg]
    simp only [parseLoopTrace_exit]

/-- With a non-empty delimiter, from a position inside the value: every
recorded `cur` is inside the value and its `next` is the result of the search
from it; from one iteration to the next the search has succeeded and `cur` has
moved past its result; the last recorded search is the one that fails. -/
theorem parseLoopTrace_spec (v d : List Char) (hd : d ≠ []) (hv : v.length < npos) :
    ∀ (fuel cur next : Nat) (m : KeyValueStore), cur ≤ v.length → v.length + 2 ≤ fuel + cur →
      next ≠ npos →
      (∀ a ∈ (parseLoopTrace v d fuel cur next m).1,
        cur ≤ a.1 ∧ a.1 ≤ v.length ∧ a.2 = find v d a.1) ∧
      (∀ (i : Nat) (a b : Nat × Nat),
        (parseLoopTrace v d fuel cur next m).1[i]? = some a →
        (parseLoopTrace v d fuel cur next m).1[i + 1]? = some b →
        a.2 ≠ npos ∧ b.1 = a.2 + 1 ∧ a.1 < b.1) ∧
      List.Pairwise (fun a b : Nat × Nat => a.1 < b.1) (parseLoopTrace v d fuel cur next m).1 ∧
      (∃ c, (parseLoopTrace v d fuel cur next m).1.getLast? = some (c, npos)) ∧
      (parseLoopTrace v d fuel cur next m).1.head? = some (cur, find v d cur) := by
  have hdl : 0 < d.length := List.length_pos.mpr hd
  intro fuel
  induction fuel with
  | zero =>
    intro cur next m hcur hfuel
    omega
  | succ fuel ih =>
    intro cur next m hcur hfuel hnext
    rcases find_bounds v d cur with h | h
    · obtain ⟨f, rfl⟩ : ∃ f, fuel = f + 1 := ⟨fuel - 1, by omega⟩
      rw [parseLoopTrace_last v d f cur next m hv hnext h hcur]
      refine ⟨?_, ?_, List.pairwise_singleton _ _, ⟨cur, rfl⟩, by rw [h]; rfl⟩
      · intro a ha
        rw [List.mem_singleton] at ha
        rw [ha]
        exact ⟨Nat.le_refl _, hcur, h.symm⟩
      · intro i a b _ hb
        simp at hb
    · have hpn : find v d cur ≠ npos := by omega
      rw [parseLoopTrace_found v d fuel cur next _ m hv hnext rfl h.1 (by omega)]
      obtain ⟨h1, h2, h3, ⟨c, h4⟩, h5⟩ := ih (find v d cur + 1) (find v d cur)
        (insertSegment m ((v.drop cur).take (find v d cur - cur))) (by omega) (by omega) hpn
      generalize (parseLoopTrace v d fuel (find v d cur + 1) (find v d cur)
        (insertSegment m ((v.drop cur).take (find v d cur - cur)))).1 = t at h1 h2 h3 h4 h5
      cases t with
      | nil => cases h5
      | cons b t =>
        simp only [List.head?_cons, Option.some.injEq] at h5
        refine ⟨?_, ?_, ?_, ⟨c, by rw [List.getLast?_cons_cons]; exact h4⟩, rfl⟩
        · intro a ha
          rcases List.mem_cons.mp ha with ha | ha
          · rw [ha]
            exact ⟨Nat.le_refl _, hcur, rfl⟩
          · obtain ⟨g1, g2, g3⟩ := h1 a ha
            exact ⟨by omega, g2, g3⟩
        · intro i x y hx hy
          cases i with
          | zero =>
            simp only [List.getElem?_cons_zero, Option.some.injEq] at hx
            simp only [Nat.zero_add, List.getElem?_cons_succ, List.getElem?_cons_zero,
              Option.some.injEq] at hy
            rw [← hx, ← hy, h5]
            exact ⟨hpn, rfl, by simp only; omega⟩
          | succ j =>
            rw [List.getElem?_cons_succ] at hx hy
            exact h2 j x y hx hy
        · rw [List.pairwise_cons]
          refine ⟨?_, h3⟩
          intro y hy
          have := (h1 y hy).1
          simp only
          omega

/-- More fuel does not change what the loop returns. -/
theorem parseLoop_fuel_mono (v d : List Char) :
    ∀ (fuel cur next : Nat) (m m' : KeyValueStore),
      parseLoop v d fuel cur next m = .ok m' → parseLoop v d (fuel + 1) cur next m = .ok m' := by
  intro fuel
  induction fuel with
  | zero =>
    intro cur next m m' h
    simp [parseLoop] at h
  | succ fuel ih =>
    intro cur next m m' h
    rw [parseLoop] at h ⊢
    by_cases hnext : next = npos
    · rw [if_pos hnext] at h ⊢
      exact h
    · rw [if_neg hnext] at h ⊢
      simp only at h ⊢
      cases hs : substr v cur (subSz (find v d cur) cur) with
      | error e => rw [hs] at h; cases h
      | ok keyval =>
        rw [hs] at h
        simp only at h ⊢
        by_cases hk : keyval = []
        · rw [if_neg (by simp [hk])] at h ⊢
          exact ih _ _ _ _ h
        · rw [if_pos hk] at h ⊢
          cases hp : parseKeyVal keyval with
          | error e => rw [hp] at h; cases h
          | ok kv =>
            rw [hp] at h
            exact ih _ _ _ _ h

theorem parseLoop_fuel_le (v d : List Char) (fuel cur next : Nat) (m m' : KeyValueStore)
    (h : parseLoop v d fuel cur next m = .ok m') :
    ∀ extra, parseLoop v d (fuel + extra) cur next m = .ok m' := by
  intro extra
  induction extra with
  | zero => exact h
  | succ extra ih => exact parseLoop_fuel_mono v d _ cur next m m' ih

/-! ## The claims on the loop -/

/-- C18: for a non-empty delimiter, at the start of every iteration of the loop
the scan position `cur` is at most the length of the value, the substring
constructor called with it returns, and the constructor of the dictionary
returns a dictionary (it does not fail with `std::out_of_range`). The recorded
loop is the loop of the constructor: it has its outcome. -/
theorem C18_scan_position_in_range (getenv : Env) (envvar d s : List Char) (hd : d ≠ [])
    (hlen : s.length < npos) (hget : getenv envvar = some s) :
    (parseLoopTrace s d (s.length + 2) 0 0 []).2 = parseLoop s d (s.length + 2) 0 0 [] ∧
    (∀ a ∈ (parseLoopTrace s d (s.length + 2) 0 0 []).1,
      a.1 ≤ s.length ∧ ∃ keyval, substr s a.1 (subSz a.2 a.1) = .ok keyval) ∧
    ∃ dict, Dictionary.new getenv envvar d = .ok dict := by
  refine ⟨parseLoopTrace_outcome s d _ 0 0 [], ?_, ?_⟩
  · intro a ha
    obtain ⟨h1, _⟩ := parseLoopTrace_spec s d hd hlen (s.length + 2) 0 0 []
      (Nat.zero_le _) (Nat.le_refl _) (by decide)
    have hle := (h1 a ha).2.1
    exact ⟨hle, _, substr_ok s a.1 _ hle⟩
  · exact Dictionary.new_total getenv envvar d hd
      (fun t ht => by rw [hget] at ht; cases ht; exact hlen)

/-- Instance of C18: the value `A=1;;B=2` with the delimiter `;`. -/
theorem C18_scan_position_in_range_witness :
    (parseLoopTrace "A=1;;B=2".toList ";".toList ("A=1;;B=2".toList.length + 2) 0 0 []).2 =
      parseLoop "A=1;;B=2".toList ";".toList ("A=1;;B=2".toList.length + 2) 0 0 [] ∧
    (∀ a ∈ (parseLoopTrace "A=1;;B=2".toList ";".toList
        ("A=1;;B=2".toList.length + 2) 0 0 []).1,
      a.1 ≤ "A=1;;B=2".toList.length ∧
        ∃ keyval, substr "A=1;;B=2".toList a.1 (subSz a.2 a.1) = .ok keyval) ∧
    ∃ dict, Dictionary.new (constEnv "A=1;;B=2") "ENVVAR".toList ";".toList = .ok dict :=
  C18_scan_position_in_range (constEnv "A=1;;B=2") "ENVVAR".toList ";".toList
    "A=1;;B=2".toList (by decide) (by decide) rfl

/-- C19: for a non-empty delimiter the loop terminates: with the fuel of the
constructor, and with any larger fuel, it returns the same store. The scan
position `cur` strictly increases along the iterations; from one iteration to
the next the search has succeeded and `cur` is one past its result; the last
iteration is the one whose search fails. The recorded loop is the loop of the
constructor: it has its outcome. -/
theorem C19_loop_terminates (s d : List Char) (hd : d ≠ []) (hlen : s.length < npos) :
    (∃ m, parseLoop s d (s.length + 2) 0 0 [] = .ok m ∧
      ∀ fuel, s.length + 2 ≤ fuel → parseLoop s d fuel 0 0 [] = .ok m) ∧
    (parseLoopTrace s d (s.length + 2) 0 0 []).2 = parseLoop s d (s.length + 2) 0 0 [] ∧
    (∀ a ∈ (parseLoopTrace s d (s.length + 2) 0 0 []).1, a.2 = find s d a.1) ∧
    List.Pairwise (fun a b : Nat × Nat => a.1 < b.1)
      (parseLoopTrace s d (s.length + 2) 0 0 []).1 ∧
    (∀ (i : Nat) (a b : Nat × Nat),
      (parseLoopTrace s d (s.length + 2) 0 0 []).1[i]? = some a →
      (parseLoopTrace s d (s.length + 2) 0 0 []).1[i + 1]? = some b →
      a.2 ≠ npos ∧ b.1 = a.2 + 1 ∧ a.1 < b.1) ∧
    ∃ c, (parseLoopTrace s d (s.length + 2) 0 0 []).1.getLast? = some (c, npos) := by
  obtain ⟨h1, h2, h3, h4, _⟩ := parseLoopTrace_spec s d hd hlen (s.length + 2) 0 0 []
    (Nat.zero_le _) (Nat.le_refl _) (by decide)
  obtain ⟨m, hm⟩ := parseLoop_total s d hd hlen (s.length + 2) 0 0 []
    (Nat.zero_le _) (Nat.le_refl _)
  refine ⟨⟨m, hm, ?_⟩, parseLoopTrace_outcome s d _ 0 0 [], fun a ha => (h1 a ha).2.2, h3, h2, h4⟩
  intro fuel hfuel
  have h := parseLoop_fuel_le s d (s.length + 2) 0 0 [] m hm (fuel - (s.length + 2))
  have he : s.length + 2 + (fuel - (s.length + 2)) = fuel := by omega
  rw [he] at h
  exact h

/-- Instance of C19: the value `A=1;;B=2` with the delimiter `;`, whose
recorded positions are `(0, 3)`, `(4, 4)` and `(5, npos)`. -/
theorem C19_loop_terminates_witness :
    (parseLoopTrace "A=1;;B=2".toList ";".toList ("A=1;;B=2".toList.length + 2) 0 0 []).1 =
      [(0, 3), (4, 4), (5, npos)] ∧
    ((∃ m, parseLoop "A=1;;B=2".toList ";".toList ("A=1;;B=2".toList.length + 2) 0 0 [] = .ok m ∧
      ∀ fuel, "A=1;;B=2".toList.length + 2 ≤ fuel →
        parseLoop "A=1;;B=2".toList ";".toList fuel 0 0 [] = .ok m) ∧
    (parseLoopTrace "A=1;;B=2".toList ";".toList ("A=1;;B=2".toList.length + 2) 0 0 []).2 =
      parseLoop "A=1;;B=2".toList ";".toList ("A=1;;B=2".toList.length + 2) 0 0 [] ∧
    (∀ a ∈ (parseLoopTrace "A=1;;B=2".toList ";".toList
        ("A=1;;B=2".toList.length + 2) 0 0 []).1,
      a.2 = find "A=1;;B=2".toList ";".toList a.1) ∧
    List.Pairwise (fun a b : Nat × Nat => a.1 < b.1)
      (parseLoopTrace "A=1;;B=2".toList ";".toList ("A=1;;B=2".toList.length + 2) 0 0 []).1 ∧
    (∀ (i : Nat) (a b : Nat × Nat),
      (parseLoopTrace "A=1;;B=2".toList ";".toList
        ("A=1;;B=2".toList.length + 2) 0 0 []).1[i]? = some a →
      (parseLoopTrace "A=1;;B=2".toList ";".toList
        ("A=1;;B=2".toList.length + 2) 0 0 []).1[i + 1]? = some b →
      a.2 ≠ npos ∧ b.1 = a.2 + 1 ∧ a.1 < b.1) ∧
    ∃ c, (parseLoopTrace "A=1;;B=2".toList ";".toList
        ("A=1;;B=2".toList.length + 2) 0 0 []).1.getLast? = some (c, npos)) :=
  ⟨rfl, C19_loop_terminates "A=1;;B=2".toList ";".toList (by decide) (by decide)⟩


/-! ## The empty key -/

theorem keyOf_eq_cons (v : List Char) : keyOf ('=' :: v) = [] := by
  unfold keyOf
  rw [List.takeWhile_cons_of_neg (by decide)]

theorem valueOf_eq_cons (v : List Char) : valueOf ('=' :: v) = v := by
  unfold valueOf
  rw [List.dropWhile_cons_of_neg (by decide)]
  rfl

theorem keyOf_ne_nil (x : List Char) (hx : x ≠ []) (hhead : x.head? ≠ some '=') :
    keyOf x ≠ [] := by
  cases x with
  | nil => exact absurd rfl hx
  | cons a t =>
    have ha : a ≠ '=' := fun e => hhead (by rw [e]; rfl)
    unfold keyOf
    rw [List.takeWhile_cons_of_pos (by simpa using ha)]
    exact List.cons_ne_nil _ _

theorem length_le_intercalate_of_mem (d seg : List Char) :
    ∀ (segs : List (List Char)), seg ∈ segs → seg.length ≤ (List.intercalate d segs).length := by
  intro segs
  induction segs with
  | nil => intro h; cases h
  | cons s rest ih =>
    intro h
    rw [intercalate_cons_length]
    rcases List.mem_cons.mp h with e | hmem
    · rw [e]
      omega
    · have hr : rest ≠ [] := fun e => by rw [e] at hmem; cases hmem
      have := ih hmem
      simp only [hr, if_false]
      omega

/-- The answer of `Get` does not depend on what the store holds under the
empty key. -/
theorem Get_ignores_empty_key (dict : Dictionary) (key : List Char) :
    Dictionary.Get dict key =
      Dictionary.Get
        { dict with m_dict := dict.m_dict.filter (fun p => decide (p.1 ≠ [])) } key := by
  have hfilter : ∀ (m : KeyValueStore), key ≠ [] →
      StdMap.find (m.filter (fun p => decide (p.1 ≠ []))) key = StdMap.find m key := by
    intro m hkey
    induction m with
    | nil => rfl
    | cons p m ih =>
      obtain ⟨k, w⟩ := p
      by_cases hk : k = []
      · have hne : ¬ k = key := fun e => hkey (e ▸ hk)
        rw [List.filter_cons_of_neg (by simp [hk])]
        simp only [StdMap.find, if_neg hne]
        exact ih
      · rw [List.filter_cons_of_pos (by simp [hk])]
        by_cases hkk : k = key
        · simp only [StdMap.find, if_pos hkk]
        · simp only [StdMap.find, if_neg hkk]
          exact ih
  cases key with
  | nil => rfl
  | cons a t =>
    unfold Dictionary.Get
    simp only [List.isEmpty_cons, Bool.false_eq_true, if_false]
    rw [hfilter dict.m_dict (List.cons_ne_nil a t)]

/-- C21: a non-empty segment that begins with `=` is stored under the empty
key, and `Get` cannot give its value back. For the value `=v` and the delimiter
`;` the store is exactly the one binding of the empty key to `v`, while
`Get("")` returns `(true, "=v")`. In general, for segments joined by a
one-character delimiter, when `=v` is a segment and no segment before it
begins with `=`, the store maps the empty key to `v`, while `Get("")` returns
the whole value and not `(true, v)`; and for every dictionary and every key the
answer of `Get` is the same when the binding of the empty key is removed from
the store. -/
theorem C21_empty_key_is_unreachable (getenv : Env) (envvar : List Char) (c : Char)
    (before after : List (List Char)) (v : List Char)
    (hc : ∀ x ∈ before ++ ('=' :: v) :: after, c ∉ x)
    (hlen : (List.intercalate [c] (before ++ ('=' :: v) :: after)).length < npos)
    (hget : getenv envvar = some (List.intercalate [c] (before ++ ('=' :: v) :: after)))
    (hfirst : ∀ x ∈ before, x.head? ≠ some '=') :
    (Dictionary.new (constEnv "=v") "ENVVAR".toList ";".toList =
        .ok ⟨true, "=v".toList, [([], "v".toList)]⟩ ∧
      Dictionary.Get ⟨true, "=v".toList, [([], "v".toList)]⟩ [] = (true, "=v".toList)) ∧
    (∃ dict, Dictionary.new getenv envvar [c] = .ok dict ∧
      StdMap.find (Dictionary.GetStore dict) [] = some v ∧
      Dictionary.Get dict [] =
        (true, List.intercalate [c] (before ++ ('=' :: v) :: after)) ∧
      Dictionary.Get dict [] ≠ (true, v)) ∧
    (∀ (dict : Dictionary) (key : List Char),
      Dictionary.Get dict key =
        Dictionary.Get
          { dict with m_dict := dict.m_dict.filter (fun p => decide (p.1 ≠ [])) } key) := by
  refine ⟨⟨rfl, rfl⟩, ?_, Get_ignores_empty_key⟩
  have hstore := find_foldl_first before after ('=' :: v) [] rfl (List.cons_ne_nil _ _)
    (fun x hx hne => by
      rw [keyOf_eq_cons]
      exact keyOf_ne_nil x hne (hfirst x hx))
  rw [keyOf_eq_cons, valueOf_eq_cons] at hstore
  refine ⟨_, Dictionary.new_join getenv envvar c _ hc hlen hget, hstore, rfl, ?_⟩
  intro h
  have hraw : List.intercalate [c] (before ++ ('=' :: v) :: after) = v :=
    (Prod.mk.inj h).2
  have hle := length_le_intercalate_of_mem [c] ('=' :: v) (before ++ ('=' :: v) :: after)
    (List.mem_append_right _ (List.mem_cons_self _ _))
  rw [hraw, List.length_cons] at hle
  omega

/-- Instance of C21: the value `A=1;=v;=w` with the delimiter `;`: the empty
key is bound to `v`, and `Get("")` returns the whole value. -/
theorem C21_empty_key_is_unreachable_witness :
    ∃ dict, Dictionary.new (constEnv "A=1;=v;=w") "ENVVAR".toList [';'] = .ok dict ∧
      StdMap.find (Dictionary.GetStore dict) [] = some "v".toList ∧
      Dictionary.Get dict [] =
        (true, List.intercalate [';'] (["A=1".toList] ++ ('=' :: "v".toList) :: ["=w".toList])) ∧
      Dictionary.Get dict [] ≠ (true, "v".toList) :=
  (C21_empty_key_is_unreachable (constEnv "A=1;=v;=w") "ENVVAR".toList ';' ["A=1".toList]
    ["=w".toList] "v".toList (by decide) (by decide) rfl (by decide)).2.1

end ns3
